import Mathlib

/-
  Verification development for the conv-tree repository: a density-guided
  quadtree over weighted 2-D points.  The adaptive tree is embedded from the
  variant with the greater-Y-is-top rectangle convention (the convention the
  specification fixes); the uniform midpoint variant (QuadTree) is embedded
  for its split-eligibility rule.  Go float64 arithmetic is modelled exactly
  over the rationals; Go int over the integers.  Go slice reads are total
  here with the zero value as default, and a dedicated predicate records the
  index ranges the convolution routine actually reads, so that out-of-range
  reads can be reasoned about.  The unbounded ring-search loop and the
  split recursion are written with an explicit fuel argument; the fuel used
  matches the bound the code maintains (depth is strictly below maxDepth
  whenever a split fires, and the ring search provably exits within
  width + height iterations).
-/

set_option maxHeartbeats 1600000
set_option maxRecDepth 400000
set_option exponentiation.threshold 1030

namespace Conv

/-- Modelled from the spec: the Point value type of section 3 (its Go source
file is not under src).  X and Y are real coordinates, Weight an integer, and
Content an opaque payload that is optionally a list of tag strings; the
payload is some tags exactly when the Go interface value is a string slice. -/
structure Point where
  X : ℚ
  Y : ℚ
  Weight : ℤ
  Content : Option (List String)
deriving DecidableEq

/-- Sum of point weights of a list (the accumulation loops of checkSplit and
getNodeWeight). -/
def wsum (l : List Point) : ℤ := (l.map Point.Weight).sum

/-- len(grid) as an integer. -/
def gridW (g : List (List ℚ)) : ℤ := g.length

/-- len(grid[0]) as an integer; the Go code always takes the second dimension
from row 0. -/
def gridH (g : List (List ℚ)) : ℤ := (g.getD 0 []).length

/-- grid[i][j] at integer indices.  Out-of-range reads return 0; the ring
search only reads under explicit bounds guards, so the default is never
observable there. -/
def gridAt (g : List (List ℚ)) (i j : ℤ) : ℚ :=
  if 0 ≤ i ∧ 0 ≤ j then (g.getD i.toNat []).getD j.toNat 0 else 0

/-- mean of a slice of floats (sum divided by length).  On an empty slice Go
produces NaN; in ℚ the division yields 0.  No claim depends on that case. -/
def mean (l : List ℚ) : ℚ := l.sum / (l.length : ℚ)

/-- Go conversion int(x) on a float: truncation toward zero. -/
def truncQ (q : ℚ) : ℤ := if 0 ≤ q then ⌊q⌋ else ⌈q⌉

/-- math.MaxFloat64, the sentinel that seeds the running maximum in
normalizeGrid. -/
def maxFloat64 : ℚ := ((2 ^ 1024 - 2 ^ 971 : ℕ) : ℚ)

/-- The maximum-search loop of normalizeGrid: row index below len(grid),
column index below len(grid[0]). -/
def gridMax (g : List (List ℚ)) : ℚ :=
  (List.range g.length).foldl (fun m i =>
    (List.range (g.getD 0 []).length).foldl (fun m j =>
      let v := (g.getD i []).getD j 0
      if m < v then v else m) m) (-maxFloat64)

/-- normalizeGrid divides every cell by the grid maximum.  The Go loop
rewrites the cells with column index below len(grid[0]) in place; every grid
this program builds is rectangular, where that is the whole grid. -/
def normalizeGrid (g : List (List ℚ)) : List (List ℚ) :=
  let m := gridMax g
  g.map (fun row => row.map (fun v => v / m))

/-- checkKernel: a kernel is accepted when it is a nonempty square matrix.
The kernel[0] == nil test of the source has no separate meaning over lists:
an empty first row of a nonempty kernel already fails the squareness test. -/
def checkKernel (k : List (List ℚ)) : Bool :=
  if k.isEmpty then false
  else if (k.getD 0 []).length ≠ k.length then false
  else k.all (fun row => row.length == (k.getD 0 []).length)

/-- The built-in 3x3 smoothing kernel substituted for an invalid kernel. -/
def defaultKernel : List (List ℚ) :=
  [[1/2, 1/2, 1/2], [1/2, 1, 1/2], [1/2, 1/2, 1/2]]

/-- convolve, translated from the source.  The four validation errors are the
ones the Go function returns.  The padded working grid reproduces the three
sequential row-writing loops (later writes win): the final padding rows
overwrite, the middle copy loop runs over rows 1 .. size-2 and columns
1 .. size-2 regardless of the padding value, reading grid[i-padding][j-padding].
Reads outside the grid (which panic in Go, and occur exactly when
convolveInBounds is false) return 0 here.  All the quantities in the
result-size formula are nonnegative once the checks pass, so natural-number
division matches the Go int division. -/
def convolve (grid kernel : List (List ℚ)) (stride padding : ℤ) :
    Except String (List (List ℚ)) :=
  if stride < 1 then .error "convolutional stride must be larger than 0"
  else if padding < 1 then .error "convolutional padding must be larger than 0"
  else if (grid.length : ℤ) < kernel.length then
    .error "grid width is less than convolutional kernel size"
  else if ((grid.getD 0 []).length : ℤ) < kernel.length then
    .error "grid height is less than convolutional kernel size"
  else
    let k := kernel.length
    let p := padding.toNat
    let s := stride.toNat
    let size := grid.length + 2 * p
    let procGrid : List (List ℚ) :=
      (List.range size).map (fun i =>
        if size - p ≤ i then List.replicate size 0
        else if 1 ≤ i ∧ i ≤ size - 2 then
          (List.range size).map (fun j =>
            if 1 ≤ j ∧ j ≤ size - 2 then
              gridAt grid ((i : ℤ) - padding) ((j : ℤ) - padding)
            else 0)
        else List.replicate size 0)
    let resultWidth := (grid.length - k + 2 * p) / s + 1
    let resultHeight := ((grid.getD 0 []).length - k + 2 * p) / s + 1
    .ok ((List.range resultWidth).map (fun i =>
      (List.range resultHeight).map (fun j =>
        ((List.range k).map (fun x =>
          ((List.range k).map (fun y =>
            let posX := s * i + x
            let posY := s * j + y
            if posX < procGrid.length ∧ posY < (procGrid.getD 0 []).length then
              (procGrid.getD posX []).getD posY 0 * ((kernel.getD x []).getD y 0)
            else 0)).sum)).sum)))

/-- The disjunction of the four validation checks of convolve. -/
def convolveChecksFail (grid kernel : List (List ℚ)) (stride padding : ℤ) : Bool :=
  decide (stride < 1) || decide (padding < 1) ||
  decide ((grid.length : ℤ) < kernel.length) ||
  decide (((grid.getD 0 []).length : ℤ) < kernel.length)

/-- Records whether every read of the input grid performed by the row-copy
loop of convolve (rows 1 .. size-2, columns 1 .. size-2, reading
grid[i-padding][j-padding]) is inside the grid.  In Go an out-of-range read
panics. -/
def convolveInBounds (grid : List (List ℚ)) (padding : ℤ) : Bool :=
  let p := padding.toNat
  let size := grid.length + 2 * p
  (List.range size).all (fun i =>
    !(decide (1 ≤ i) && decide (i ≤ size - 2)) ||
      ((List.range size).all (fun j =>
        !(decide (1 ≤ j) && decide (j ≤ size - 2)) ||
          (decide (0 ≤ (i : ℤ) - padding) &&
           decide ((i : ℤ) - padding < (grid.length : ℤ)) &&
           decide (0 ≤ (j : ℤ) - padding) &&
           decide ((j : ℤ) - padding <
             ((grid.getD ((i : ℤ) - padding).toNat []).length : ℤ))))))

/-- The mutable state of one iteration of the ring-search loop body of
getSplitPoint: the candidate x and y offsets, the collected cell values, and
the itemFound flag. -/
structure RingState where
  x : ℤ
  y : ℤ
  vals : List ℚ
  found : Bool
deriving DecidableEq

/-- The inclusive index range j = center-counter .. center+counter of the
ring scans. -/
def jrange (center counter : ℤ) : List ℤ :=
  (List.range (2 * counter + 1).toNat).map (fun k => center - counter + (k : ℤ))

/-- len(grid)/2, the x reference center of the ring search. -/
def centerX (g : List (List ℚ)) : ℤ := (g.length / 2 : ℕ)

/-- len(grid[0])/2, the y reference center of the ring search. -/
def centerY (g : List (List ℚ)) : ℤ := ((g.getD 0 []).length / 2 : ℕ)

/-- First ring scan: column maxX - counter.  A qualifying cell sets x to the
column index, appends the value, and raises itemFound. -/
def scanVLow (g : List (List ℚ)) (mx my counter : ℤ) (sv : ℚ) (s : RingState) :
    RingState :=
  let i := mx - counter
  if 0 ≤ i then
    (jrange my counter).foldl (fun s j =>
      if 0 ≤ j ∧ j < gridH g ∧ sv < gridAt g i j then
        ⟨i, s.y, s.vals ++ [gridAt g i j], true⟩
      else s) s
  else s

/-- Second ring scan: column maxX + counter.  A qualifying cell moves x to
this column when the current x is strictly farther from len(grid)/2. -/
def scanVHigh (g : List (List ℚ)) (mx my counter : ℤ) (sv : ℚ) (s : RingState) :
    RingState :=
  let i := mx + counter
  if i < gridW g then
    (jrange my counter).foldl (fun s j =>
      if 0 ≤ j ∧ j < gridH g ∧ sv < gridAt g i j then
        ⟨if |s.x - centerX g| > |i - centerX g| then i else s.x,
         s.y, s.vals ++ [gridAt g i j], true⟩
      else s) s
  else s

/-- Third ring scan: row maxY - counter (cells grid[j][i]).  A qualifying
cell sets y; its value is collected only when it is not one of the two
corner columns already visited by the vertical scans. -/
def scanHLow (g : List (List ℚ)) (mx my counter : ℤ) (sv : ℚ) (s : RingState) :
    RingState :=
  let i := my - counter
  if 0 ≤ i then
    (jrange mx counter).foldl (fun s j =>
      if 0 ≤ j ∧ j < gridW g ∧ sv < gridAt g j i then
        ⟨s.x, i,
         if j ≠ mx - counter ∧ j ≠ mx + counter then s.vals ++ [gridAt g j i]
         else s.vals, true⟩
      else s) s
  else s

/-- Fourth ring scan: row maxY + counter, with the farther-from-center test
on y and the same corner exclusion for collected values. -/
def scanHHigh (g : List (List ℚ)) (mx my counter : ℤ) (sv : ℚ) (s : RingState) :
    RingState :=
  let i := my + counter
  if i < gridH g then
    (jrange mx counter).foldl (fun s j =>
      if 0 ≤ j ∧ j < gridW g ∧ sv < gridAt g j i then
        ⟨s.x,
         if |s.y - centerY g| > |i - centerY g| then i else s.y,
         if j ≠ mx - counter ∧ j ≠ mx + counter then s.vals ++ [gridAt g j i]
         else s.vals, true⟩
      else s) s
  else s

/-- One full iteration body of the ring-search loop: the four scans run in
source order on a state reset to x = 0, y = 0, empty values, itemFound
false. -/
def ringStep (g : List (List ℚ)) (mx my counter : ℤ) (sv : ℚ) : RingState :=
  scanHHigh g mx my counter sv
    (scanHLow g mx my counter sv
      (scanVHigh g mx my counter sv
        (scanVLow g mx my counter sv ⟨0, 0, [], false⟩)))

/-- The ring-search loop.  Each iteration runs ringStep; when nothing is
found it stops with the accumulated split offsets, otherwise it commits the
nonzero offsets, lowers the threshold to mean times 0.8 and grows the ring.
The fuel argument only bounds the iteration count; the termination theorem
shows the fuel used by getSplitPoint is never exhausted. -/
def ringLoop (g : List (List ℚ)) (mx my : ℤ) :
    ℕ → ℚ → ℤ → ℤ → ℤ → Option (ℤ × ℤ)
  | 0, _, _, _, _ => none
  | fuel + 1, sv, sX, sY, counter =>
    let s := ringStep g mx my counter sv
    if s.found then
      ringLoop g mx my fuel (mean s.vals * (4/5))
        (if s.x ≠ 0 then s.x else sX) (if s.y ≠ 0 then s.y else sY) (counter + 1)
    else some (sX, sY)

/-- The row-major strict-maximum scan that opens getSplitPoint: starts from
(0, 0) with value 0. -/
def gridArgmax (g : List (List ℚ)) : ℤ × ℤ × ℚ :=
  (List.range g.length).foldl (fun a i =>
    (List.range (g.getD 0 []).length).foldl (fun a j =>
      let v := (g.getD i []).getD j 0
      if a.2.2 < v then ((i : ℤ), (j : ℤ), v) else a) a) (0, 0, 0)

/-- getSplitPoint: maximum scan, ring-search loop at threshold 0.8 times the
maximum, then the final one-cell nudge away from the maximum.  The loop is
run with fuel width + height + 2, which the termination theorem proves
sufficient; the none branch is unreachable.  The getD reads totalize the Go
slice indexing: on the empty grid the fourth ring guard of the source
evaluates len(grid[0]), an index-out-of-range panic, where this model reads
length 0; splitAccessOK below records the nonemptiness that separates the
two behaviours.  On nonempty grids every source access is bounds-guarded
and the model agrees with it. -/
def getSplitPoint (g : List (List ℚ)) : ℤ × ℤ :=
  let a := gridArgmax g
  match ringLoop g a.1 a.2.1 (g.length + (g.getD 0 []).length + 2)
      (a.2.2 * (4/5)) 0 0 1 with
  | some r =>
    ((if a.1 < r.1 then r.1 + 1 else r.1 - 1),
     (if a.2.1 < r.2 then r.2 + 1 else r.2 - 1))
  | none => (0, 0)

/-- The per-node data of the adaptive tree: configuration, region, depth,
stored points and baseline tags.  The opaque unique identifier is omitted:
it is supplied by an external collaborator and no claim concerns it. -/
structure NodeData where
  maxPoints : ℤ
  maxDepth : ℤ
  depth : ℤ
  gridSize : ℤ
  convNum : ℤ
  kernel : List (List ℚ)
  points : List Point
  minXLength : ℚ
  minYLength : ℚ
  topLeft : Point
  bottomRight : Point
  baselineTags : List String
deriving DecidableEq

/-- checkSplit of the adaptive tree: both region dimensions strictly above
twice the minimum, and total stored weight above maxPoints with depth below
maxDepth. -/
def NodeData.checkSplit (d : NodeData) : Bool :=
  let cond1 := decide (2 * d.minXLength < d.bottomRight.X - d.topLeft.X) &&
               decide (2 * d.minYLength < d.topLeft.Y - d.bottomRight.Y)
  let cond2 := decide (d.maxPoints < wsum d.points) &&
               decide (d.depth < d.maxDepth)
  cond1 && cond2

/-- getNodeWeight: total weight of the points inside the closed cell box. -/
def getNodeWeight (d : NodeData) (xLeft xRight yTop yBottom : ℚ) : ℤ :=
  wsum (d.points.filter (fun p =>
    decide (xLeft ≤ p.X ∧ p.X ≤ xRight ∧ yBottom ≤ p.Y ∧ p.Y ≤ yTop)))

/-- filterSplitPoints: the points of the node inside the closed child
rectangle (greater-Y-is-top convention). -/
def filterSplitPoints (d : NodeData) (tl br : Point) : List Point :=
  d.points.filter (fun p =>
    decide (tl.X ≤ p.X ∧ p.X ≤ br.X ∧ br.Y ≤ p.Y ∧ p.Y ≤ tl.Y))

/-- The gridSize x gridSize density rasterization at the top of split.  The
toNat clamp totalizes the Go allocation: make with a negative length panics
in Go, where this model produces the empty grid; splitAccessOK below
records the sign condition that separates the two behaviours. -/
def rasterize (d : NodeData) : List (List ℚ) :=
  let xSize := d.gridSize.toNat
  let xStep := (d.bottomRight.X - d.topLeft.X) / (d.gridSize : ℚ)
  let yStep := (d.topLeft.Y - d.bottomRight.Y) / (d.gridSize : ℚ)
  (List.range xSize).map (fun (i : ℕ) =>
    (List.range xSize).map (fun (j : ℕ) =>
      let xLeft := d.topLeft.X + (i : ℚ) * xStep
      let xRight := d.topLeft.X + ((i : ℚ) + 1) * xStep
      let yBottom := d.bottomRight.Y + (j : ℚ) * yStep
      let yTop := d.bottomRight.Y + ((j : ℚ) + 1) * yStep
      (getNodeWeight d xLeft xRight yTop yBottom : ℚ)))

/-- The convolution passes of split: each pass convolves with stride 1 and
padding 1 and renormalizes; a convolution error stops the passes and keeps
the grid computed so far. -/
def convPasses (kernel : List (List ℚ)) : ℕ → List (List ℚ) → List (List ℚ)
  | 0, g => g
  | n + 1, g =>
    match convolve g kernel 1 1 with
    | .error _ => g
    | .ok g2 => convPasses kernel n (normalizeGrid g2)

/-- The dedup of the tag strings of one point (the itemTags set in
getBaseline); points whose payload is not a string slice contribute
nothing. -/
def pointTags (p : Point) : List String :=
  match p.Content with
  | some tags => tags.dedup
  | none => []

/-- One increment of the tagValues map.  The map is modelled as an
association list in first-insertion order; the Go map has no order, and only
the set of entries matters downstream. -/
def bumpTag (m : List (String × ℤ)) (tag : String) : List (String × ℤ) :=
  if m.any (fun kv => kv.1 == tag) then
    m.map (fun kv => if kv.1 == tag then (kv.1, kv.2 + 1) else kv)
  else m ++ [(tag, 1)]

/-- The tagValues accumulation of getBaseline over all points. -/
def tagCounts (pts : List Point) : List (String × ℤ) :=
  pts.foldl (fun m p => (pointTags p).foldl bumpTag m) []

/-- filterTags: keep the tags whose count strictly exceeds int(mean). -/
def filterTags (m : List (String × ℤ)) : List String :=
  let numbers := m.map (fun kv => (kv.2 : ℚ))
  let splitValue := truncQ (mean numbers)
  (m.filter (fun kv => decide (splitValue < kv.2))).map (fun kv => kv.1)

/-- getBaseline: overwrite the baseline tags from the filtered counts, but
only when at least one tag was seen. -/
def NodeData.getBaseline (d : NodeData) : NodeData :=
  let m := tagCounts d.points
  if m.isEmpty then d else { d with baselineTags := filterTags m }

/-- The adaptive tree.  In the Go struct a node carries an IsLeaf flag and
four child pointers that are nil exactly on leaves; the two constructors
carry the same invariant structurally. -/
inductive ConvTree where
  | leaf (d : NodeData)
  | node (d : NodeData)
      (childTopLeft childTopRight childBottomLeft childBottomRight : ConvTree)
deriving DecidableEq

/-- The data stored at the root node of a tree. -/
def ConvTree.cfg : ConvTree → NodeData
  | .leaf d => d
  | .node d _ _ _ _ => d

/-- The clamped vertical cut coordinate of split: the raw offset from the
left edge, pulled to keep both child widths at least minXLength. -/
def clampXCut (tlX brX minX xr0 : ℚ) : ℚ :=
  let xr1 := if xr0 - tlX < minX then tlX + minX else xr0
  if brX - xr1 < minX then brX - minX else xr1

/-- The clamped horizontal cut coordinate of split (the offset grows from
the bottom edge in the greater-Y-is-top convention). -/
def clampYCut (tlY brY minY yb0 : ℚ) : ℚ :=
  let yb1 := if yb0 - brY < minY then brY + minY else yb0
  if tlY - yb1 < minY then tlY - minY else yb1

/-- The convolved and renormalized density grid split works on: normalize
the rasterized weights, run the convolution passes, normalize once more. -/
def splitGrid (d : NodeData) : List (List ℚ) :=
  normalizeGrid (convPasses d.kernel d.convNum.toNat (normalizeGrid (rasterize d)))

/-- The clamped vertical spatial cut of split: the search offset, defaulted
to the grid midpoint when degenerate, scaled by the cell step and clamped. -/
def splitCutX (d : NodeData) : ℚ :=
  let convolved := splitGrid d
  let sp := getSplitPoint convolved
  let L : ℤ := convolved.length
  let xMax : ℤ := if sp.1 < 1 ∨ L - 1 ≤ sp.1 then (convolved.length / 2 : ℕ) else sp.1
  let xStep := (d.bottomRight.X - d.topLeft.X) / (d.gridSize : ℚ)
  clampXCut d.topLeft.X d.bottomRight.X d.minXLength (d.topLeft.X + (xMax : ℚ) * xStep)

/-- The clamped horizontal spatial cut of split (measured up from the
bottom edge in the greater-Y-is-top convention). -/
def splitCutY (d : NodeData) : ℚ :=
  let convolved := splitGrid d
  let sp := getSplitPoint convolved
  let L0 : ℤ := (convolved.getD 0 []).length
  let yMax : ℤ :=
    if sp.2 < 1 ∨ L0 - 1 ≤ sp.2 then ((convolved.getD 0 []).length / 2 : ℕ) else sp.2
  let yStep := (d.topLeft.Y - d.bottomRight.Y) / (d.gridSize : ℚ)
  clampYCut d.topLeft.Y d.bottomRight.Y d.minYLength (d.bottomRight.Y + (yMax : ℚ) * yStep)

/-- split: rasterize, normalize, convolve convNum times, renormalize, find
the split cell, default a degenerate offset to the grid midpoint, clamp the
spatial cut to the minimum child sizes, then build the four children.  Each
child receives the points of its closed rectangle and either splits again or
becomes a leaf that inherits the parent baseline tags and computes its own.
The parent keeps its data with the point list discarded.  The fuel argument
bounds the recursion depth; every call site passes maxDepth - depth, which
the checkSplit guard keeps positive. -/
def split : ℕ → NodeData → ConvTree
  | 0, d => ConvTree.leaf d
  | fuel + 1, d =>
    let xRight := splitCutX d
    let yBottom := splitCutY d
    let build := fun (tl br : Point) =>
      let c : NodeData :=
        { d with topLeft := tl, bottomRight := br, depth := d.depth + 1,
                 points := filterSplitPoints d tl br, baselineTags := [] }
      if c.checkSplit then split fuel c
      else ConvTree.leaf (NodeData.getBaseline { c with baselineTags := d.baselineTags })
    ConvTree.node { d with points := [] }
      (build d.topLeft ⟨xRight, yBottom, 0, none⟩)
      (build ⟨xRight, d.topLeft.Y, 0, none⟩ ⟨d.bottomRight.X, yBottom, 0, none⟩)
      (build ⟨d.topLeft.X, yBottom, 0, none⟩ ⟨xRight, d.bottomRight.Y, 0, none⟩)
      (build ⟨xRight, yBottom, 0, none⟩ d.bottomRight)

/-- The child-construction step of split, as a standalone function of the
parent data and the child rectangle: attach the filtered points, split
recursively when eligible, otherwise finalize the leaf with the inherited
baseline tags. -/
def splitBuild (fuel : ℕ) (d : NodeData) (tl br : Point) : ConvTree :=
  let c : NodeData :=
    { d with topLeft := tl, bottomRight := br, depth := d.depth + 1,
             points := filterSplitPoints d tl br, baselineTags := [] }
  if c.checkSplit then split fuel c
  else ConvTree.leaf (NodeData.getBaseline { c with baselineTags := d.baselineTags })

/-- The grid partiality points of the split recursion, checked along the
recursion that split itself performs.  The Go code panics in two reachable
places that the total grid model smooths over: make with a negative length
when GridSize is negative, and the evaluation of len(grid[0]) in the fourth
ring guard of getSplitPoint, which hits index 0 of the empty grid a zero
GridSize produces.  Every other grid read of the recursion is
bounds-guarded once the convolved grid is nonempty.  This check returns
true exactly when both conditions hold at every split invocation the build
performs. -/
def splitAccessOK : ℕ → NodeData → Bool
  | 0, _ => true
  | fuel + 1, d =>
    let xRight := splitCutX d
    let yBottom := splitCutY d
    let buildOK := fun (tl br : Point) =>
      let c : NodeData :=
        { d with topLeft := tl, bottomRight := br, depth := d.depth + 1,
                 points := filterSplitPoints d tl br, baselineTags := [] }
      if c.checkSplit then splitAccessOK fuel c else true
    decide (0 ≤ d.gridSize) && !(splitGrid d).isEmpty &&
      buildOK d.topLeft ⟨xRight, yBottom, 0, none⟩ &&
      buildOK ⟨xRight, d.topLeft.Y, 0, none⟩ ⟨d.bottomRight.X, yBottom, 0, none⟩ &&
      buildOK ⟨d.topLeft.X, yBottom, 0, none⟩ ⟨xRight, d.bottomRight.Y, 0, none⟩ &&
      buildOK ⟨xRight, yBottom, 0, none⟩ d.bottomRight

/-- Whether a NewConvTree run stays clear of the split grid panics:
vacuously true when validation rejects the region or the root is not
split-eligible, because no grid is ever built there, and otherwise the
recursive access check on the root split with the same data NewConvTree
builds. -/
def createAccessOK (topLeft bottomRight : Point) (minXLength minYLength : ℚ)
    (maxPoints maxDepth convNumber gridSize : ℤ) (kernel : List (List ℚ))
    (initPoints : List Point) : Bool :=
  if bottomRight.X ≤ topLeft.X then true
  else if topLeft.Y ≤ bottomRight.Y then true
  else
    let k := if checkKernel kernel then kernel else defaultKernel
    let d : NodeData :=
      { maxPoints := maxPoints, maxDepth := maxDepth, depth := 0,
        gridSize := gridSize, convNum := convNumber, kernel := k,
        points := initPoints, minXLength := minXLength, minYLength := minYLength,
        topLeft := topLeft, bottomRight := bottomRight, baselineTags := [] }
    if d.checkSplit then splitAccessOK maxDepth.toNat d else true

/-- NewConvTree: region validation, kernel defaulting, root construction at
depth 0, then an immediate split when eligible, and a baseline computation
otherwise. -/
def NewConvTree (topLeft bottomRight : Point) (minXLength minYLength : ℚ)
    (maxPoints maxDepth convNumber gridSize : ℤ) (kernel : List (List ℚ))
    (initPoints : List Point) : Except String ConvTree :=
  if bottomRight.X ≤ topLeft.X then
    .error "X of top left point is larger or equal to X of bottom right point"
  else if topLeft.Y ≤ bottomRight.Y then
    .error "Y of bottom right point is larger or equal to Y of top left point"
  else
    let k := if checkKernel kernel then kernel else defaultKernel
    let d : NodeData :=
      { maxPoints := maxPoints, maxDepth := maxDepth, depth := 0,
        gridSize := gridSize, convNum := convNumber, kernel := k,
        points := initPoints, minXLength := minXLength, minYLength := minYLength,
        topLeft := topLeft, bottomRight := bottomRight, baselineTags := [] }
    if d.checkSplit then .ok (split maxDepth.toNat d)
    else .ok (ConvTree.leaf d.getBaseline)

/-- The child-containment test of Insert: closed rectangle on all four
sides, greater-Y-is-top. -/
def containsB (t : ConvTree) (p : Point) : Bool :=
  decide (t.cfg.topLeft.X ≤ p.X ∧ p.X ≤ t.cfg.bottomRight.X ∧
          p.Y ≤ t.cfg.topLeft.Y ∧ t.cfg.bottomRight.Y ≤ p.Y)

/-- Insert: an internal node routes to the first child whose closed
rectangle contains the point, in top-left, top-right, bottom-left,
bottom-right order, and returns unchanged when none matches; a leaf appends
the point and, when allowed, re-checks eligibility and splits. -/
def Insert : ConvTree → Point → Bool → ConvTree
  | .leaf d, p, allowSplit =>
    let d2 := { d with points := d.points ++ [p] }
    if allowSplit && d2.checkSplit then split (d2.maxDepth - d2.depth).toNat d2
    else .leaf d2
  | .node d ctl ctr cbl cbr, p, allowSplit =>
    if containsB ctl p then .node d (Insert ctl p allowSplit) ctr cbl cbr
    else if containsB ctr p then .node d ctl (Insert ctr p allowSplit) cbl cbr
    else if containsB cbl p then .node d ctl ctr (Insert cbl p allowSplit) cbr
    else if containsB cbr p then .node d ctl ctr cbl (Insert cbr p allowSplit)
    else .node d ctl ctr cbl cbr

/-- Check: re-evaluate eligibility at the root and split when eligible. -/
def Check (t : ConvTree) : ConvTree :=
  if t.cfg.checkSplit then split (t.cfg.maxDepth - t.cfg.depth).toNat t.cfg else t

/-- Clear: discard the stored points of every node, keeping the shape. -/
def Clear : ConvTree → ConvTree
  | .leaf d => .leaf { d with points := [] }
  | .node d a b c e =>
    .node { d with points := [] } (Clear a) (Clear b) (Clear c) (Clear e)

/-- Total weight stored in the leaves of a tree. -/
def totalLeafWeight : ConvTree → ℤ
  | .leaf d => wsum d.points
  | .node _ a b c e =>
    totalLeafWeight a + totalLeafWeight b + totalLeafWeight c + totalLeafWeight e

/-- Every leaf rectangle is at least minW wide and minH high. -/
def leavesMinSizeB (minW minH : ℚ) : ConvTree → Bool
  | .leaf d =>
    decide (minW ≤ d.bottomRight.X - d.topLeft.X ∧
            minH ≤ d.topLeft.Y - d.bottomRight.Y)
  | .node _ a b c e =>
    leavesMinSizeB minW minH a && leavesMinSizeB minW minH b &&
    leavesMinSizeB minW minH c && leavesMinSizeB minW minH e

/-- Every child depth is its parent depth plus one, everywhere. -/
def depthOKB : ConvTree → Bool
  | .leaf _ => true
  | .node d a b c e =>
    decide (a.cfg.depth = d.depth + 1 ∧ b.cfg.depth = d.depth + 1 ∧
            c.cfg.depth = d.depth + 1 ∧ e.cfg.depth = d.depth + 1) &&
    depthOKB a && depthOKB b && depthOKB c && depthOKB e

/-- The point list and baseline tags of every leaf, in child order. -/
def leafTagInfo : ConvTree → List (List Point × List String)
  | .leaf d => [(d.points, d.baselineTags)]
  | .node _ a b c e =>
    leafTagInfo a ++ leafTagInfo b ++ leafTagInfo c ++ leafTagInfo e

/-- The per-node data of the uniform midpoint tree variant; its rectangles
use the lesser-Y-is-top convention of its source file. -/
structure QuadData where
  maxPoints : ℤ
  maxDepth : ℤ
  depth : ℤ
  splitSteps : ℤ
  points : List Point
  topLeft : Point
  bottomRight : Point
  minXLength : ℚ
  minYLength : ℚ
deriving DecidableEq

/-- checkSplit of the uniform tree variant: identical rule, with the height
measured as BottomRight.Y - TopLeft.Y in its convention. -/
def QuadData.checkSplit (q : QuadData) : Bool :=
  let cond1 := decide (2 * q.minXLength < q.bottomRight.X - q.topLeft.X) &&
               decide (2 * q.minYLength < q.bottomRight.Y - q.topLeft.Y)
  let cond2 := decide (q.maxPoints < wsum q.points) &&
               decide (q.depth < q.maxDepth)
  cond1 && cond2

/-! Concrete instances used by the counterexamples and witnesses below. -/

/-- A 10 x 10 region in the greater-Y-is-top convention: top left (0, 10). -/
def cexTopLeft : Point := ⟨0, 10, 0, none⟩

/-- Bottom right (10, 0) of the 10 x 10 region. -/
def cexBottomRight : Point := ⟨10, 0, 0, none⟩

/-- A weight-1 point that lands exactly on the vertical cut x = 5 produced
by a gridSize-2 split of the 10 x 10 region. -/
def cexPointOnCut : Point := ⟨5, 7, 1, none⟩

/-- A weight-1 point strictly inside the bottom-left quadrant. -/
def cexPointInner : Point := ⟨2, 2, 1, none⟩

/-- A 5 x 5 grid whose maximum 1 sits at (3, 3), with cells 9/10 on both
vertical rings at counter 1 (columns 2 and 4). -/
def gRings : List (List ℚ) :=
  [[0, 0, 0, 0, 0],
   [0, 0, 0, 0, 0],
   [0, 0, 0, 9/10, 0],
   [0, 0, 0, 1, 0],
   [0, 0, 0, 9/10, 0]]

/-- A 5 x 5 grid whose maximum 1 sits at (2, 2) with qualifying cells on all
four rings at counter 1. -/
def gCross : List (List ℚ) :=
  [[0, 0, 0, 0, 0],
   [0, 0, 9/10, 0, 0],
   [0, 9/10, 1, 9/10, 0],
   [0, 0, 9/10, 0, 0],
   [0, 0, 0, 0, 0]]

/-- The all-ones 3 x 3 grid. -/
def gOnes3 : List (List ℚ) := [[1, 1, 1], [1, 1, 1], [1, 1, 1]]

/-- The value of convolve on the all-ones grid with the default kernel,
stride 1, padding 1. -/
def flatOut3 : List (List ℚ) :=
  [[5/2, 7/2, 5/2], [7/2, 5, 7/2], [5/2, 7/2, 5/2]]

/-- A point tagged a in the top-left quadrant. -/
def tagPointA1 : Point := ⟨2, 8, 1, some ["a"]⟩

/-- A second point tagged a in the top-left quadrant. -/
def tagPointA2 : Point := ⟨3, 8, 1, some ["a"]⟩

/-- A point tagged b in the top-left quadrant. -/
def tagPointB : Point := ⟨2, 7, 1, some ["b"]⟩

/-- An untagged point in the bottom-right quadrant whose insertion triggers
the split. -/
def tagPointNone : Point := ⟨7, 2, 1, none⟩

/-- Node data of a small internal demonstration node over the 10 x 10
region. -/
def demoData : NodeData :=
  { maxPoints := 10, maxDepth := 2, depth := 0, gridSize := 2, convNum := 0,
    kernel := defaultKernel, points := [], minXLength := 1, minYLength := 1,
    topLeft := cexTopLeft, bottomRight := cexBottomRight, baselineTags := [] }

/-- A leaf child of the demonstration node over the given rectangle. -/
def demoChild (tl br : Point) : ConvTree :=
  ConvTree.leaf { demoData with topLeft := tl, bottomRight := br, depth := 1 }

/-- The four quadrant leaves of the demonstration node. -/
def demoCTL : ConvTree := demoChild ⟨0, 10, 0, none⟩ ⟨5, 5, 0, none⟩

def demoCTR : ConvTree := demoChild ⟨5, 10, 0, none⟩ ⟨10, 5, 0, none⟩

def demoCBL : ConvTree := demoChild ⟨0, 5, 0, none⟩ ⟨5, 0, 0, none⟩

def demoCBR : ConvTree := demoChild ⟨5, 5, 0, none⟩ ⟨10, 0, 0, none⟩

/-- An internal node with the four quadrant leaves. -/
def demoNode : ConvTree := ConvTree.node demoData demoCTL demoCTR demoCBL demoCBR

/-- A point outside the demonstration region (and every child). -/
def demoOutside : Point := ⟨20, 20, 1, none⟩

/-- Demonstration node data holding two interior points away from the cut
lines x = 5 and y = 5. -/
def dConsv : NodeData := { demoData with points := [cexPointInner, tagPointNone] }

/-- Demonstration node data whose three points carry tags a, a and b. -/
def dTag : NodeData := { demoData with points := [tagPointA1, tagPointA2, tagPointB] }

/-- The tree built over the 10 x 10 region from the two counterexample
points (it splits once into four leaves). -/
def cexSplitTree : ConvTree :=
  ((NewConvTree cexTopLeft cexBottomRight 1 1 1 1 0 2 []
      [cexPointOnCut, cexPointInner]).toOption).getD (ConvTree.leaf demoData)

/-- The count stored for a tag in the tagValues association list: the value
of the first entry with that key, 0 when absent (observer used to state the
baseline-tag properties). -/
def countTag : List (String × ℤ) → String → ℤ
  | [], _ => 0
  | kv :: rest, tag => if kv.1 = tag then kv.2 else countTag rest tag

/-! Theorems. -/

/-- Unfolding lemma: split at positive fuel is the node whose four children
are built by splitBuild at the two clamped cuts. -/
theorem split_succ (fuel : ℕ) (d : NodeData) :
    split (fuel + 1) d =
      ConvTree.node { d with points := [] }
        (splitBuild fuel d d.topLeft ⟨splitCutX d, splitCutY d, 0, none⟩)
        (splitBuild fuel d ⟨splitCutX d, d.topLeft.Y, 0, none⟩
          ⟨d.bottomRight.X, splitCutY d, 0, none⟩)
        (splitBuild fuel d ⟨d.topLeft.X, splitCutY d, 0, none⟩
          ⟨splitCutX d, d.bottomRight.Y, 0, none⟩)
        (splitBuild fuel d ⟨splitCutX d, splitCutY d, 0, none⟩ d.bottomRight) :=
  rfl

/-- wsum distributes over cons. -/
theorem wsum_cons (p : Point) (l : List Point) :
    wsum (p :: l) = p.Weight + wsum l := by
  simp [wsum]

/-- The weight of a filtered list as a sum of pointwise indicators. -/
theorem wsum_filter_eq_map (f : Point → Bool) (l : List Point) :
    wsum (l.filter f) = (l.map (fun p => if f p then p.Weight else 0)).sum := by
  induction l with
  | nil => rfl
  | cons p t ih =>
    by_cases hf : f p <;> simp [List.filter_cons, hf, wsum_cons, ih]

/-- Sums of mapped lists add pointwise. -/
theorem sum_map_add (F G : Point → ℤ) (l : List Point) :
    (l.map F).sum + (l.map G).sum = (l.map (fun p => F p + G p)).sum := by
  induction l with
  | nil => rfl
  | cons p t ih => simp only [List.map_cons, List.sum_cons]; omega

/-- Sums of mapped lists agree when the functions agree on the list. -/
theorem sum_map_congr (F G : Point → ℤ) (l : List Point)
    (h : ∀ p ∈ l, F p = G p) : (l.map F).sum = (l.map G).sum := by
  induction l with
  | nil => rfl
  | cons p t ih =>
    simp only [List.map_cons, List.sum_cons]
    rw [h p (List.mem_cons_self p t), ih (fun q hq => h q (List.mem_cons_of_mem p hq))]

/-- A point of the parent rectangle away from both cut lines lies in the
closed rectangle of exactly one of the four children, so its weight is
counted exactly once. -/
theorem indicator_once (tlX tlY brX brY xR yB : ℚ) (p : Point)
    (ha : tlX ≤ p.X) (hb : p.X ≤ brX) (hc : brY ≤ p.Y) (hd : p.Y ≤ tlY)
    (hx : p.X ≠ xR) (hy : p.Y ≠ yB) :
    (if tlX ≤ p.X ∧ p.X ≤ xR ∧ yB ≤ p.Y ∧ p.Y ≤ tlY then p.Weight else 0) +
    (if xR ≤ p.X ∧ p.X ≤ brX ∧ yB ≤ p.Y ∧ p.Y ≤ tlY then p.Weight else 0) +
    (if tlX ≤ p.X ∧ p.X ≤ xR ∧ brY ≤ p.Y ∧ p.Y ≤ yB then p.Weight else 0) +
    (if xR ≤ p.X ∧ p.X ≤ brX ∧ brY ≤ p.Y ∧ p.Y ≤ yB then p.Weight else 0) =
    p.Weight := by
  rcases hx.lt_or_lt with hxl | hxr <;> rcases hy.lt_or_lt with hyl | hyr
  · rw [if_neg (fun h => absurd h.2.2.1 (not_le.2 hyl)),
      if_neg (fun h => absurd h.1 (not_le.2 hxl)),
      if_pos ⟨ha, hxl.le, hc, hyl.le⟩,
      if_neg (fun h => absurd h.1 (not_le.2 hxl))]
    omega
  · rw [if_pos ⟨ha, hxl.le, hyr.le, hd⟩,
      if_neg (fun h => absurd h.1 (not_le.2 hxl)),
      if_neg (fun h => absurd h.2.2.2 (not_le.2 hyr)),
      if_neg (fun h => absurd h.1 (not_le.2 hxl))]
    omega
  · rw [if_neg (fun h => absurd h.2.2.1 (not_le.2 hyl)),
      if_neg (fun h => absurd h.2.2.1 (not_le.2 hyl)),
      if_neg (fun h => absurd h.2.1 (not_le.2 hxr)),
      if_pos ⟨hxr.le, hb, hc, hyl.le⟩]
    omega
  · rw [if_neg (fun h => absurd h.2.1 (not_le.2 hxr)),
      if_pos ⟨hxr.le, hb, hyr.le, hd⟩,
      if_neg (fun h => absurd h.2.1 (not_le.2 hxr)),
      if_neg (fun h => absurd h.2.2.2 (not_le.2 hyr))]
    omega

/-- An if-then-else between two ok results always yields some ok result. -/
theorem exists_eq_ok_ite {α : Type} (c : Prop) [Decidable c] (a b : α) :
    ∃ t : α, (if c then (Except.ok a : Except String α) else Except.ok b) =
      Except.ok t := by
  by_cases hc : c <;> simp [hc]

/-- C3: for both tree variants, checkSplit is true exactly when the region
is strictly wider than twice the minimum width and strictly higher than
twice the minimum height, the total stored point weight strictly exceeds
maxPoints, and the depth is strictly below maxDepth.  Height is measured in
the Y convention of the respective variant.  In particular a region at or
below the size floor never splits, whatever its weight. -/
theorem checkSplit_iff (d : NodeData) (q : QuadData) :
    (d.checkSplit = true ↔
      2 * d.minXLength < d.bottomRight.X - d.topLeft.X ∧
      2 * d.minYLength < d.topLeft.Y - d.bottomRight.Y ∧
      d.maxPoints < wsum d.points ∧ d.depth < d.maxDepth) ∧
    (q.checkSplit = true ↔
      2 * q.minXLength < q.bottomRight.X - q.topLeft.X ∧
      2 * q.minYLength < q.bottomRight.Y - q.topLeft.Y ∧
      q.maxPoints < wsum q.points ∧ q.depth < q.maxDepth) := by
  constructor <;>
    simp [NodeData.checkSplit, QuadData.checkSplit, and_assoc]

/-- The rasterized grid has one row per cell column: its length is the
clamped grid size. -/
theorem rasterize_length (d : NodeData) :
    (rasterize d).length = d.gridSize.toNat := by
  simp only [rasterize]
  rw [List.length_map, List.length_range]

/-- normalizeGrid preserves the outer length. -/
theorem normalizeGrid_length (g : List (List ℚ)) :
    (normalizeGrid g).length = g.length := by
  simp [normalizeGrid]

/-- normalizeGrid of a nonempty grid is nonempty. -/
theorem normalizeGrid_ne_nil (g : List (List ℚ)) (hg : g ≠ []) :
    normalizeGrid g ≠ [] := by
  intro hn
  apply hg
  have hl := congrArg List.length hn
  rw [normalizeGrid_length] at hl
  exact List.length_eq_zero.mp hl

/-- A successful convolve returns a nonempty grid: the result width is a
division plus one. -/
theorem convolve_ok_ne_nil (g k : List (List ℚ)) (s p : ℤ)
    (g2 : List (List ℚ)) (h : convolve g k s p = Except.ok g2) : g2 ≠ [] := by
  simp only [convolve] at h
  split_ifs at h
  injection h with h2
  subst h2
  apply List.ne_nil_of_length_pos
  simp only [List.length_map, List.length_range]
  exact Nat.succ_pos _

/-- The convolution passes preserve grid nonemptiness: a failed pass keeps
the input grid and a successful pass yields a renormalized nonempty
output. -/
theorem convPasses_ne_nil (k : List (List ℚ)) (n : ℕ) :
    ∀ g : List (List ℚ), g ≠ [] → convPasses k n g ≠ [] := by
  induction n with
  | zero => intro g hg; simpa [convPasses] using hg
  | succ n ih =>
    intro g hg
    unfold convPasses
    cases hc : convolve g k 1 1 with
    | error e => exact hg
    | ok g2 =>
      exact ih _ (normalizeGrid_ne_nil _ (convolve_ok_ne_nil g k 1 1 g2 hc))

/-- For a positive grid size the convolved grid split works on is
nonempty. -/
theorem splitGrid_ne_nil (d : NodeData) (h : 1 ≤ d.gridSize) :
    splitGrid d ≠ [] := by
  have h0 : rasterize d ≠ [] := by
    intro he
    have hl := congrArg List.length he
    rw [rasterize_length] at hl
    simp only [List.length_nil] at hl
    omega
  exact normalizeGrid_ne_nil _
    (convPasses_ne_nil d.kernel d.convNum.toNat _ (normalizeGrid_ne_nil _ h0))

/-- With a positive grid size, which every recursive invocation inherits
unchanged, the whole split recursion is free of the two grid panics. -/
theorem splitAccessOK_true : ∀ (fuel : ℕ) (d : NodeData), 1 ≤ d.gridSize →
    splitAccessOK fuel d = true := by
  intro fuel
  induction fuel with
  | zero => intro d _; rfl
  | succ n ih =>
    intro d hd
    have hA : decide (0 ≤ d.gridSize) = true := by
      rw [decide_eq_true_eq]; omega
    have hB : (splitGrid d).isEmpty = false := by
      rw [List.isEmpty_eq_false]
      exact splitGrid_ne_nil d hd
    have hbuild : ∀ tl br : Point,
        (if (NodeData.checkSplit
               { d with topLeft := tl, bottomRight := br,
                        depth := d.depth + 1,
                        points := filterSplitPoints d tl br,
                        baselineTags := [] }) = true
         then splitAccessOK n
                { d with topLeft := tl, bottomRight := br,
                         depth := d.depth + 1,
                         points := filterSplitPoints d tl br,
                         baselineTags := [] }
         else true) = true := by
      intro tl br
      by_cases hc : (NodeData.checkSplit
          { d with topLeft := tl, bottomRight := br, depth := d.depth + 1,
                   points := filterSplitPoints d tl br,
                   baselineTags := [] }) = true
      · rw [if_pos hc]
        exact ih
          { d with topLeft := tl, bottomRight := br, depth := d.depth + 1,
                   points := filterSplitPoints d tl br,
                   baselineTags := [] } hd
      · rw [if_neg hc]
    simp only [splitAccessOK, hA, hB, hbuild, Bool.not_false, Bool.and_true,
      Bool.true_and]

/-- C5, amended: NewConvTree returns its error exactly when the region
violates TopLeft.X < BottomRight.X or TopLeft.Y > BottomRight.Y, and
insert, check and clear have no error channel at all (their embeddings
return plain trees); but a success of the total model corresponds to a
completed Go run only when every grid access of the split recursion is in
bounds, which the gridSize >= 1 proviso guarantees.  With gridSize <= 0 and
a split-eligible root the Go code instead panics (make with a negative
length, or len(grid[0]) evaluated on the empty grid inside getSplitPoint),
as the counterexample exhibits. -/
theorem create_error_iff (tl br : Point) (minX minY : ℚ) (mp md cn gs : ℤ)
    (kern : List (List ℚ)) (pts : List Point) (hgs : 1 ≤ gs) :
    ((∃ t, NewConvTree tl br minX minY mp md cn gs kern pts = Except.ok t) ↔
      tl.X < br.X ∧ br.Y < tl.Y) ∧
    createAccessOK tl br minX minY mp md cn gs kern pts = true := by
  constructor
  · unfold NewConvTree
    split_ifs with h1 h2 h3 <;> simp_all [not_le] <;>
      exact exists_eq_ok_ite _ _ _
  · simp only [createAccessOK]
    split_ifs <;>
      first
        | rfl
        | exact splitAccessOK_true md.toNat _ hgs

/-- Witness for the amended C5: the concrete valid region with grid size 2
and two unit points; the build succeeds and the access check holds. -/
theorem create_error_iff_witness :
    (1 : ℤ) ≤ 2 ∧
    (((∃ t, NewConvTree cexTopLeft cexBottomRight 1 1 1 1 0 2 []
        [cexPointInner, tagPointNone] = Except.ok t) ↔
      cexTopLeft.X < cexBottomRight.X ∧ cexBottomRight.Y < cexTopLeft.Y) ∧
    createAccessOK cexTopLeft cexBottomRight 1 1 1 1 0 2 []
        [cexPointInner, tagPointNone] = true) :=
  ⟨by decide, create_error_iff cexTopLeft cexBottomRight 1 1 1 1 0 2 []
      [cexPointInner, tagPointNone] (by decide)⟩

/-- Counterexample to C5 as stated: on the valid region (0,10)-(10,0) with
two unit points, maxPoints 1, maxDepth 1 and gridSize 0 the total model
returns ok, but the run is not panic-free: the root is split-eligible, the
rasterized grid is empty, and getSplitPoint evaluates len(grid[0]) on it,
an index-out-of-range panic in Go (a negative gridSize already panics at
the allocation); create therefore does not succeed on every valid
rectangle. -/
theorem create_error_counterexample :
    (NewConvTree cexTopLeft cexBottomRight 1 1 1 1 0 0 []
        [cexPointInner, tagPointNone]).toOption.isSome = true ∧
    createAccessOK cexTopLeft cexBottomRight 1 1 1 1 0 0 []
        [cexPointInner, tagPointNone] = false :=
  ⟨by with_unfolding_all decide, by with_unfolding_all decide⟩

/-- C9: Insert on an internal node with a point contained in none of the
four closed child rectangles returns the node unchanged, reporting
nothing. -/
theorem insert_outside_noop (d : NodeData) (ctl ctr cbl cbr : ConvTree)
    (p : Point) (a : Bool)
    (h1 : containsB ctl p = false) (h2 : containsB ctr p = false)
    (h3 : containsB cbl p = false) (h4 : containsB cbr p = false) :
    Insert (ConvTree.node d ctl ctr cbl cbr) p a =
      ConvTree.node d ctl ctr cbl cbr := by
  simp [Insert, h1, h2, h3, h4]

/-- Witness for C9: a concrete internal node and a point outside all four
children; Insert leaves the node untouched. -/
theorem insert_outside_noop_witness :
    containsB demoCTL demoOutside = false ∧ containsB demoCTR demoOutside = false ∧
    containsB demoCBL demoOutside = false ∧ containsB demoCBR demoOutside = false ∧
    Insert demoNode demoOutside true = demoNode := by
  have h1 : containsB demoCTL demoOutside = false := by with_unfolding_all decide
  have h2 : containsB demoCTR demoOutside = false := by with_unfolding_all decide
  have h3 : containsB demoCBL demoOutside = false := by with_unfolding_all decide
  have h4 : containsB demoCBR demoOutside = false := by with_unfolding_all decide
  exact ⟨h1, h2, h3, h4,
    insert_outside_noop demoData demoCTL demoCTR demoCBL demoCBR demoOutside
      true h1 h2 h3 h4⟩

/-- C1, amended: one split conserves total point weight provided every
parent point lies in the parent closed rectangle and no point sits exactly
on the vertical cut line x = xRight or the horizontal cut line y = yBottom.
The four rectangles are precisely the ones split hands to
filterSplitPoints.  A point on a shared cut line is instead copied into
every child whose closed rectangle contains it, which is what the
counterexample exhibits end to end through NewConvTree. -/
theorem split_weight_conservation (d : NodeData) (xRight yBottom : ℚ)
    (h : ∀ p ∈ d.points,
      (d.topLeft.X ≤ p.X ∧ p.X ≤ d.bottomRight.X ∧
       d.bottomRight.Y ≤ p.Y ∧ p.Y ≤ d.topLeft.Y) ∧ p.X ≠ xRight ∧ p.Y ≠ yBottom) :
    wsum (filterSplitPoints d d.topLeft ⟨xRight, yBottom, 0, none⟩) +
    wsum (filterSplitPoints d ⟨xRight, d.topLeft.Y, 0, none⟩
      ⟨d.bottomRight.X, yBottom, 0, none⟩) +
    wsum (filterSplitPoints d ⟨d.topLeft.X, yBottom, 0, none⟩
      ⟨xRight, d.bottomRight.Y, 0, none⟩) +
    wsum (filterSplitPoints d ⟨xRight, yBottom, 0, none⟩ d.bottomRight) =
    wsum d.points := by
  unfold filterSplitPoints
  rw [wsum_filter_eq_map, wsum_filter_eq_map, wsum_filter_eq_map, wsum_filter_eq_map,
    sum_map_add, sum_map_add, sum_map_add]
  show _ = (d.points.map Point.Weight).sum
  apply sum_map_congr
  intro p hp
  obtain ⟨⟨ha, hb, hc, hd⟩, hxne, hyne⟩ := h p hp
  simp only [decide_eq_true_eq]
  exact indicator_once _ _ _ _ _ _ p ha hb hc hd hxne hyne

/-- Witness for the amended C1: two concrete interior points away from the
cut (5, 5); the four child filters hold them exactly once. -/
theorem split_weight_conservation_witness :
    (∀ p ∈ dConsv.points,
      (dConsv.topLeft.X ≤ p.X ∧ p.X ≤ dConsv.bottomRight.X ∧
       dConsv.bottomRight.Y ≤ p.Y ∧ p.Y ≤ dConsv.topLeft.Y) ∧
      p.X ≠ 5 ∧ p.Y ≠ 5) ∧
    wsum (filterSplitPoints dConsv dConsv.topLeft ⟨5, 5, 0, none⟩) +
    wsum (filterSplitPoints dConsv ⟨5, dConsv.topLeft.Y, 0, none⟩
      ⟨dConsv.bottomRight.X, 5, 0, none⟩) +
    wsum (filterSplitPoints dConsv ⟨dConsv.topLeft.X, 5, 0, none⟩
      ⟨5, dConsv.bottomRight.Y, 0, none⟩) +
    wsum (filterSplitPoints dConsv ⟨5, 5, 0, none⟩ dConsv.bottomRight) =
    wsum dConsv.points := by
  have h : ∀ p ∈ dConsv.points,
      (dConsv.topLeft.X ≤ p.X ∧ p.X ≤ dConsv.bottomRight.X ∧
       dConsv.bottomRight.Y ≤ p.Y ∧ p.Y ≤ dConsv.topLeft.Y) ∧
      p.X ≠ 5 ∧ p.Y ≠ 5 := by
    with_unfolding_all decide
  exact ⟨h, split_weight_conservation dConsv 5 5 h⟩

/-- Both clamping steps of the vertical cut leave at least minXLength on
each side, whatever raw offset the density pipeline produced, as long as
the region is wider than twice the minimum. -/
theorem clampX_bounds (tlX brX m xr0 : ℚ) (hw : 2 * m < brX - tlX) :
    m ≤ clampXCut tlX brX m xr0 - tlX ∧ m ≤ brX - clampXCut tlX brX m xr0 := by
  simp only [clampXCut]
  split_ifs with h1 h2 h3 <;> constructor <;> linarith

/-- The horizontal analogue of clampX_bounds. -/
theorem clampY_bounds (tlY brY m yb0 : ℚ) (hh : 2 * m < tlY - brY) :
    m ≤ clampYCut tlY brY m yb0 - brY ∧ m ≤ tlY - clampYCut tlY brY m yb0 := by
  simp only [clampYCut]
  split_ifs with h1 h2 h3 <;> constructor <;> linarith

/-- splitCutX leaves at least the minimum width on both sides. -/
theorem splitCutX_bounds (d : NodeData)
    (hw : 2 * d.minXLength < d.bottomRight.X - d.topLeft.X) :
    d.minXLength ≤ splitCutX d - d.topLeft.X ∧
    d.minXLength ≤ d.bottomRight.X - splitCutX d := by
  unfold splitCutX
  exact clampX_bounds _ _ _ _ hw

/-- splitCutY leaves at least the minimum height on both sides. -/
theorem splitCutY_bounds (d : NodeData)
    (hh : 2 * d.minYLength < d.topLeft.Y - d.bottomRight.Y) :
    d.minYLength ≤ splitCutY d - d.bottomRight.Y ∧
    d.minYLength ≤ d.topLeft.Y - splitCutY d := by
  unfold splitCutY
  exact clampY_bounds _ _ _ _ hh

/-- getBaseline only rewrites the baseline tags; every other field is
untouched. -/
theorem getBaseline_preserves (x : NodeData) :
    (x.getBaseline).topLeft = x.topLeft ∧ (x.getBaseline).bottomRight = x.bottomRight ∧
    (x.getBaseline).depth = x.depth ∧ (x.getBaseline).minXLength = x.minXLength ∧
    (x.getBaseline).minYLength = x.minYLength ∧ (x.getBaseline).points = x.points := by
  simp only [NodeData.getBaseline]
  split_ifs <;> simp

/-- A child built by splitBuild over a rectangle at least minXLength wide
and minYLength high only has leaves of at least that size, given the same
for recursive splits. -/
theorem splitBuild_leaves_min (fuel : ℕ) (d : NodeData) (tl br : Point)
    (hx : 0 ≤ d.minXLength) (hy : 0 ≤ d.minYLength)
    (hw : d.minXLength ≤ br.X - tl.X) (hh : d.minYLength ≤ tl.Y - br.Y)
    (ih : ∀ c : NodeData, 0 ≤ c.minXLength → 0 ≤ c.minYLength →
      c.checkSplit = true →
      leavesMinSizeB c.minXLength c.minYLength (split fuel c) = true) :
    leavesMinSizeB d.minXLength d.minYLength (splitBuild fuel d tl br) = true := by
  simp only [splitBuild]
  split_ifs with hc
  · refine ih _ ?_ ?_ hc
    · exact hx
    · exact hy
  · simp only [leavesMinSizeB, decide_eq_true_eq]
    obtain ⟨e1, e2, -⟩ := getBaseline_preserves _
    rw [e1, e2]
    exact ⟨hw, hh⟩

/-- Every leaf below a node that split satisfies the minimum-size bound. -/
theorem split_leaves_min : ∀ (fuel : ℕ) (d : NodeData), 0 ≤ d.minXLength →
    0 ≤ d.minYLength → d.checkSplit = true →
    leavesMinSizeB d.minXLength d.minYLength (split fuel d) = true := by
  intro fuel
  induction fuel with
  | zero =>
    intro d hx hy hs
    obtain ⟨⟨hwX, hwY⟩, -⟩ :
        (2 * d.minXLength < d.bottomRight.X - d.topLeft.X ∧
         2 * d.minYLength < d.topLeft.Y - d.bottomRight.Y) ∧
        (d.maxPoints < wsum d.points ∧ d.depth < d.maxDepth) := by
      simpa [NodeData.checkSplit] using hs
    simp only [split, leavesMinSizeB, decide_eq_true_eq]
    constructor <;> linarith
  | succ n ih =>
    intro d hx hy hs
    obtain ⟨⟨hwX, hwY⟩, -⟩ :
        (2 * d.minXLength < d.bottomRight.X - d.topLeft.X ∧
         2 * d.minYLength < d.topLeft.Y - d.bottomRight.Y) ∧
        (d.maxPoints < wsum d.points ∧ d.depth < d.maxDepth) := by
      simpa [NodeData.checkSplit] using hs
    obtain ⟨hcx1, hcx2⟩ := splitCutX_bounds d hwX
    obtain ⟨hcy1, hcy2⟩ := splitCutY_bounds d hwY
    rw [split_succ]
    simp only [leavesMinSizeB, Bool.and_eq_true]
    exact ⟨⟨⟨splitBuild_leaves_min n d _ _ hx hy hcx1 hcy2 ih,
      splitBuild_leaves_min n d _ _ hx hy hcx2 hcy2 ih⟩,
      splitBuild_leaves_min n d _ _ hx hy hcx1 hcy1 ih⟩,
      splitBuild_leaves_min n d _ _ hx hy hcx2 hcy1 ih⟩

/-- The root data of a split result keeps the depth of its input. -/
theorem split_cfg_depth (fuel : ℕ) (d : NodeData) :
    (split fuel d).cfg.depth = d.depth := by
  cases fuel <;> rfl

/-- A splitBuild child sits at depth one below its parent. -/
theorem splitBuild_cfg_depth (fuel : ℕ) (d : NodeData) (tl br : Point) :
    ((splitBuild fuel d tl br).cfg).depth = d.depth + 1 := by
  simp only [splitBuild]
  split_ifs with hc
  · rw [split_cfg_depth]
  · simpa [ConvTree.cfg] using (getBaseline_preserves
      { d with topLeft := tl, bottomRight := br, depth := d.depth + 1,
               points := filterSplitPoints d tl br,
               baselineTags := d.baselineTags }).2.2.1

/-- A splitBuild child has consistent depths throughout, given the same for
recursive splits. -/
theorem splitBuild_depthOK (fuel : ℕ) (d : NodeData) (tl br : Point)
    (ih : ∀ c : NodeData, depthOKB (split fuel c) = true) :
    depthOKB (splitBuild fuel d tl br) = true := by
  simp only [splitBuild]
  split_ifs with hc
  · exact ih _
  · rfl

/-- Depth consistency of every split result: each child depth is the parent
depth plus one, recursively. -/
theorem split_depthOK : ∀ (fuel : ℕ) (d : NodeData),
    depthOKB (split fuel d) = true := by
  intro fuel
  induction fuel with
  | zero => intro d; rfl
  | succ n ih =>
    intro d
    rw [split_succ]
    simp only [depthOKB, Bool.and_eq_true, decide_eq_true_eq]
    refine ⟨⟨⟨⟨⟨?_, ?_, ?_, ?_⟩, ?_⟩, ?_⟩, ?_⟩, ?_⟩
    · exact splitBuild_cfg_depth n d _ _
    · exact splitBuild_cfg_depth n d _ _
    · exact splitBuild_cfg_depth n d _ _
    · exact splitBuild_cfg_depth n d _ _
    · exact splitBuild_depthOK n d _ _ ih
    · exact splitBuild_depthOK n d _ _ ih
    · exact splitBuild_depthOK n d _ _ ih
    · exact splitBuild_depthOK n d _ _ ih

/-- The final construction step of NewConvTree yields a tree with the
minimum-size and depth invariants whenever the root rectangle itself meets
the minimum sizes. -/
theorem createTree_ok (d : NodeData) (f : ℕ) (t : ConvTree)
    (ht : (if d.checkSplit = true then Except.ok (split f d)
           else Except.ok (ConvTree.leaf d.getBaseline)) =
      (Except.ok t : Except String ConvTree))
    (h0x : 0 ≤ d.minXLength) (h0y : 0 ≤ d.minYLength)
    (hwx : d.minXLength ≤ d.bottomRight.X - d.topLeft.X)
    (hwy : d.minYLength ≤ d.topLeft.Y - d.bottomRight.Y) :
    leavesMinSizeB d.minXLength d.minYLength t = true ∧ depthOKB t = true := by
  cases hck : d.checkSplit with
  | true =>
    rw [hck, if_pos rfl] at ht
    injection ht with ht
    subst ht
    exact ⟨split_leaves_min _ _ h0x h0y hck, split_depthOK _ _⟩
  | false =>
    rw [hck, if_neg (by simp)] at ht
    injection ht with ht
    subst ht
    constructor
    · simp only [leavesMinSizeB, decide_eq_true_eq]
      obtain ⟨e1, e2, -⟩ := getBaseline_preserves _
      rw [e1, e2]
      exact ⟨hwx, hwy⟩
    · rfl

/-- Generic description of a ring scan that rewrites the x offset: folding a
step function that, on qualifying indices, moves x to nx of the current
state (stably), keeps y, and raises the found flag. -/
theorem foldl_scan_x (f : RingState → ℤ → RingState) (Q : ℤ → Prop)
    [DecidablePred Q] (nx : RingState → ℤ)
    (hpos : ∀ s j, Q j → (f s j).x = nx s ∧ (f s j).y = s.y ∧ (f s j).found = true)
    (hneg : ∀ s j, ¬ Q j → f s j = s)
    (hstab : ∀ s j, Q j → nx (f s j) = nx s) :
    ∀ (l : List ℤ) (s : RingState),
      ((l.foldl f s).x = if ∃ j ∈ l, Q j then nx s else s.x) ∧
      (l.foldl f s).y = s.y ∧
      ((l.foldl f s).found = (s.found || decide (∃ j ∈ l, Q j))) := by
  intro l
  induction l with
  | nil => intro s; simp
  | cons j t ih =>
    intro s
    by_cases hq : Q j
    · obtain ⟨ix, iy, ifo⟩ := ih (f s j)
      obtain ⟨px, py, pf⟩ := hpos s j hq
      have hcons : ∃ a ∈ j :: t, Q a := ⟨j, List.mem_cons_self j t, hq⟩
      refine ⟨?_, ?_, ?_⟩
      · rw [List.foldl_cons, ix, if_pos hcons]
        by_cases hr : ∃ a ∈ t, Q a
        · rw [if_pos hr, hstab s j hq]
        · rw [if_neg hr, px]
      · rw [List.foldl_cons, iy, py]
      · rw [List.foldl_cons, ifo, pf, decide_eq_true hcons]
        simp
    · obtain ⟨ix, iy, ifo⟩ := ih s
      refine ⟨?_, ?_, ?_⟩ <;>
        simp only [List.foldl_cons, hneg s j hq, ix, iy, ifo] <;>
        simp [hq]

/-- The y analogue of foldl_scan_x. -/
theorem foldl_scan_y (f : RingState → ℤ → RingState) (Q : ℤ → Prop)
    [DecidablePred Q] (ny : RingState → ℤ)
    (hpos : ∀ s j, Q j → (f s j).y = ny s ∧ (f s j).x = s.x ∧ (f s j).found = true)
    (hneg : ∀ s j, ¬ Q j → f s j = s)
    (hstab : ∀ s j, Q j → ny (f s j) = ny s) :
    ∀ (l : List ℤ) (s : RingState),
      ((l.foldl f s).y = if ∃ j ∈ l, Q j then ny s else s.y) ∧
      (l.foldl f s).x = s.x ∧
      ((l.foldl f s).found = (s.found || decide (∃ j ∈ l, Q j))) := by
  intro l
  induction l with
  | nil => intro s; simp
  | cons j t ih =>
    intro s
    by_cases hq : Q j
    · obtain ⟨iy, ix, ifo⟩ := ih (f s j)
      obtain ⟨py, px, pf⟩ := hpos s j hq
      have hcons : ∃ a ∈ j :: t, Q a := ⟨j, List.mem_cons_self j t, hq⟩
      refine ⟨?_, ?_, ?_⟩
      · rw [List.foldl_cons, iy, if_pos hcons]
        by_cases hr : ∃ a ∈ t, Q a
        · rw [if_pos hr, hstab s j hq]
        · rw [if_neg hr, py]
      · rw [List.foldl_cons, ix, px]
      · rw [List.foldl_cons, ifo, pf, decide_eq_true hcons]
        simp
    · obtain ⟨iy, ix, ifo⟩ := ih s
      refine ⟨?_, ?_, ?_⟩ <;>
        simp only [List.foldl_cons, hneg s j hq, iy, ix, ifo] <;>
        simp [hq]

/-- A skipped low vertical scan (column out of bounds) changes nothing. -/
theorem scanVLow_id (g : List (List ℚ)) (mx my counter : ℤ) (sv : ℚ)
    (s : RingState) (h : ¬ 0 ≤ mx - counter) :
    scanVLow g mx my counter sv s = s := by
  unfold scanVLow
  rw [if_neg h]

/-- A skipped high vertical scan changes nothing. -/
theorem scanVHigh_id (g : List (List ℚ)) (mx my counter : ℤ) (sv : ℚ)
    (s : RingState) (h : ¬ mx + counter < gridW g) :
    scanVHigh g mx my counter sv s = s := by
  unfold scanVHigh
  rw [if_neg h]

/-- A skipped low horizontal scan changes nothing. -/
theorem scanHLow_id (g : List (List ℚ)) (mx my counter : ℤ) (sv : ℚ)
    (s : RingState) (h : ¬ 0 ≤ my - counter) :
    scanHLow g mx my counter sv s = s := by
  unfold scanHLow
  rw [if_neg h]

/-- A skipped high horizontal scan changes nothing. -/
theorem scanHHigh_id (g : List (List ℚ)) (mx my counter : ℤ) (sv : ℚ)
    (s : RingState) (h : ¬ my + counter < gridH g) :
    scanHHigh g mx my counter sv s = s := by
  unfold scanHHigh
  rw [if_neg h]

/-- The low vertical scan with a qualifying cell: x becomes the ring
column, y is kept, the flag is raised. -/
theorem scanVLow_spec (g : List (List ℚ)) (mx my counter : ℤ) (sv : ℚ)
    (s : RingState) (h0 : 0 ≤ mx - counter)
    (hq : ∃ j ∈ jrange my counter,
      0 ≤ j ∧ j < gridH g ∧ sv < gridAt g (mx - counter) j) :
    (scanVLow g mx my counter sv s).x = mx - counter ∧
    (scanVLow g mx my counter sv s).y = s.y ∧
    (scanVLow g mx my counter sv s).found = true := by
  unfold scanVLow
  rw [if_pos h0]
  obtain ⟨ix, iy, ifo⟩ :=
    foldl_scan_x
      (fun s j => if 0 ≤ j ∧ j < gridH g ∧ sv < gridAt g (mx - counter) j then
        ⟨mx - counter, s.y, s.vals ++ [gridAt g (mx - counter) j], true⟩ else s)
      (fun j => 0 ≤ j ∧ j < gridH g ∧ sv < gridAt g (mx - counter) j)
      (fun _ => mx - counter)
      (fun s j hq => by simp [if_pos hq])
      (fun s j hq => by simp [if_neg hq])
      (fun s j hq => rfl)
      (jrange my counter) s
  exact ⟨by rw [ix, if_pos hq], iy, by rw [ifo]; simp [hq]⟩

/-- The low vertical scan never touches y. -/
theorem scanVLow_y (g : List (List ℚ)) (mx my counter : ℤ) (sv : ℚ)
    (s : RingState) : (scanVLow g mx my counter sv s).y = s.y := by
  simp only [scanVLow]
  split_ifs with h0
  · exact (foldl_scan_x
      (fun s j => if 0 ≤ j ∧ j < gridH g ∧ sv < gridAt g (mx - counter) j then
        ⟨mx - counter, s.y, s.vals ++ [gridAt g (mx - counter) j], true⟩ else s)
      (fun j => 0 ≤ j ∧ j < gridH g ∧ sv < gridAt g (mx - counter) j)
      (fun _ => mx - counter)
      (fun s j hq => by simp [if_pos hq])
      (fun s j hq => by simp [if_neg hq])
      (fun s j hq => rfl)
      (jrange my counter) s).2.1
  · rfl

/-- The high vertical scan with a qualifying cell: x moves to the ring
column exactly when the current x is strictly farther from the center. -/
theorem scanVHigh_spec (g : List (List ℚ)) (mx my counter : ℤ) (sv : ℚ)
    (s : RingState) (h0 : mx + counter < gridW g)
    (hq : ∃ j ∈ jrange my counter,
      0 ≤ j ∧ j < gridH g ∧ sv < gridAt g (mx + counter) j) :
    (scanVHigh g mx my counter sv s).x =
      (if |s.x - centerX g| > |(mx + counter) - centerX g| then mx + counter
       else s.x) ∧
    (scanVHigh g mx my counter sv s).y = s.y ∧
    (scanVHigh g mx my counter sv s).found = true := by
  unfold scanVHigh
  rw [if_pos h0]
  obtain ⟨ix, iy, ifo⟩ :=
    foldl_scan_x
      (fun s j => if 0 ≤ j ∧ j < gridH g ∧ sv < gridAt g (mx + counter) j then
        ⟨if |s.x - centerX g| > |(mx + counter) - centerX g| then mx + counter
          else s.x,
         s.y, s.vals ++ [gridAt g (mx + counter) j], true⟩ else s)
      (fun j => 0 ≤ j ∧ j < gridH g ∧ sv < gridAt g (mx + counter) j)
      (fun s => if |s.x - centerX g| > |(mx + counter) - centerX g| then
        mx + counter else s.x)
      (fun s j hq => by simp [if_pos hq])
      (fun s j hq => by simp [if_neg hq])
      (fun s j hq => by
        simp only [if_pos hq]
        by_cases hcmp : |s.x - centerX g| > |(mx + counter) - centerX g| <;>
          simp [hcmp])
      (jrange my counter) s
  exact ⟨by rw [ix, if_pos hq], iy, by rw [ifo]; simp [hq]⟩

/-- The high vertical scan never touches y. -/
theorem scanVHigh_y (g : List (List ℚ)) (mx my counter : ℤ) (sv : ℚ)
    (s : RingState) : (scanVHigh g mx my counter sv s).y = s.y := by
  simp only [scanVHigh]
  split_ifs with h0
  · exact (foldl_scan_x
      (fun s j => if 0 ≤ j ∧ j < gridH g ∧ sv < gridAt g (mx + counter) j then
        ⟨if |s.x - centerX g| > |(mx + counter) - centerX g| then mx + counter
          else s.x,
         s.y, s.vals ++ [gridAt g (mx + counter) j], true⟩ else s)
      (fun j => 0 ≤ j ∧ j < gridH g ∧ sv < gridAt g (mx + counter) j)
      (fun s => if |s.x - centerX g| > |(mx + counter) - centerX g| then
        mx + counter else s.x)
      (fun s j hq => by simp [if_pos hq])
      (fun s j hq => by simp [if_neg hq])
      (fun s j hq => by
        simp only [if_pos hq]
        by_cases hcmp : |s.x - centerX g| > |(mx + counter) - centerX g| <;>
          simp [hcmp])
      (jrange my counter) s).2.1
  · rfl

/-- The low horizontal scan with a qualifying cell: y becomes the ring row,
x is kept, the flag is raised. -/
theorem scanHLow_spec (g : List (List ℚ)) (mx my counter : ℤ) (sv : ℚ)
    (s : RingState) (h0 : 0 ≤ my - counter)
    (hq : ∃ j ∈ jrange mx counter,
      0 ≤ j ∧ j < gridW g ∧ sv < gridAt g j (my - counter)) :
    (scanHLow g mx my counter sv s).y = my - counter ∧
    (scanHLow g mx my counter sv s).x = s.x ∧
    (scanHLow g mx my counter sv s).found = true := by
  unfold scanHLow
  rw [if_pos h0]
  obtain ⟨iy, ix, ifo⟩ :=
    foldl_scan_y
      (fun s j => if 0 ≤ j ∧ j < gridW g ∧ sv < gridAt g j (my - counter) then
        ⟨s.x, my - counter,
         if j ≠ mx - counter ∧ j ≠ mx + counter then
           s.vals ++ [gridAt g j (my - counter)] else s.vals, true⟩ else s)
      (fun j => 0 ≤ j ∧ j < gridW g ∧ sv < gridAt g j (my - counter))
      (fun _ => my - counter)
      (fun s j hq => by simp [if_pos hq])
      (fun s j hq => by simp [if_neg hq])
      (fun s j hq => rfl)
      (jrange mx counter) s
  exact ⟨by rw [iy, if_pos hq], ix, by rw [ifo]; simp [hq]⟩

/-- The low horizontal scan never touches x. -/
theorem scanHLow_x (g : List (List ℚ)) (mx my counter : ℤ) (sv : ℚ)
    (s : RingState) : (scanHLow g mx my counter sv s).x = s.x := by
  simp only [scanHLow]
  split_ifs with h0
  · exact (foldl_scan_y
      (fun s j => if 0 ≤ j ∧ j < gridW g ∧ sv < gridAt g j (my - counter) then
        ⟨s.x, my - counter,
         if j ≠ mx - counter ∧ j ≠ mx + counter then
           s.vals ++ [gridAt g j (my - counter)] else s.vals, true⟩ else s)
      (fun j => 0 ≤ j ∧ j < gridW g ∧ sv < gridAt g j (my - counter))
      (fun _ => my - counter)
      (fun s j hq => by simp [if_pos hq])
      (fun s j hq => by simp [if_neg hq])
      (fun s j hq => rfl)
      (jrange mx counter) s).2.1
  · rfl

/-- The high horizontal scan with a qualifying cell: y moves to the ring
row exactly when the current y is strictly farther from the center. -/
theorem scanHHigh_spec (g : List (List ℚ)) (mx my counter : ℤ) (sv : ℚ)
    (s : RingState) (h0 : my + counter < gridH g)
    (hq : ∃ j ∈ jrange mx counter,
      0 ≤ j ∧ j < gridW g ∧ sv < gridAt g j (my + counter)) :
    (scanHHigh g mx my counter sv s).y =
      (if |s.y - centerY g| > |(my + counter) - centerY g| then my + counter
       else s.y) ∧
    (scanHHigh g mx my counter sv s).x = s.x ∧
    (scanHHigh g mx my counter sv s).found = true := by
  unfold scanHHigh
  rw [if_pos h0]
  obtain ⟨iy, ix, ifo⟩ :=
    foldl_scan_y
      (fun s j => if 0 ≤ j ∧ j < gridW g ∧ sv < gridAt g j (my + counter) then
        ⟨s.x,
         if |s.y - centerY g| > |(my + counter) - centerY g| then my + counter
          else s.y,
         if j ≠ mx - counter ∧ j ≠ mx + counter then
           s.vals ++ [gridAt g j (my + counter)] else s.vals, true⟩ else s)
      (fun j => 0 ≤ j ∧ j < gridW g ∧ sv < gridAt g j (my + counter))
      (fun s => if |s.y - centerY g| > |(my + counter) - centerY g| then
        my + counter else s.y)
      (fun s j hq => by simp [if_pos hq])
      (fun s j hq => by simp [if_neg hq])
      (fun s j hq => by
        simp only [if_pos hq]
        by_cases hcmp : |s.y - centerY g| > |(my + counter) - centerY g| <;>
          simp [hcmp])
      (jrange mx counter) s
  exact ⟨by rw [iy, if_pos hq], ix, by rw [ifo]; simp [hq]⟩

/-- The high horizontal scan never touches x. -/
theorem scanHHigh_x (g : List (List ℚ)) (mx my counter : ℤ) (sv : ℚ)
    (s : RingState) : (scanHHigh g mx my counter sv s).x = s.x := by
  simp only [scanHHigh]
  split_ifs with h0
  · exact (foldl_scan_y
      (fun s j => if 0 ≤ j ∧ j < gridW g ∧ sv < gridAt g j (my + counter) then
        ⟨s.x,
         if |s.y - centerY g| > |(my + counter) - centerY g| then my + counter
          else s.y,
         if j ≠ mx - counter ∧ j ≠ mx + counter then
           s.vals ++ [gridAt g j (my + counter)] else s.vals, true⟩ else s)
      (fun j => 0 ≤ j ∧ j < gridW g ∧ sv < gridAt g j (my + counter))
      (fun s => if |s.y - centerY g| > |(my + counter) - centerY g| then
        my + counter else s.y)
      (fun s j hq => by simp [if_pos hq])
      (fun s j hq => by simp [if_neg hq])
      (fun s j hq => by
        simp only [if_pos hq]
        by_cases hcmp : |s.y - centerY g| > |(my + counter) - centerY g| <;>
          simp [hcmp])
      (jrange mx counter) s).2.1
  · rfl

/-- C4, amended: when both vertical rings hold qualifying cells, the
retained x offset is the ring column NEAREST to the grid center len/2 (the
low column mx - counter on ties), not the farthest as claimed: the code
moves x to the high column only when the current x is strictly farther from
the center.  Symmetrically for the horizontal rings and y. -/
theorem ring_offset_selection (g : List (List ℚ)) (mx my counter : ℤ) (sv : ℚ) :
    ((0 ≤ mx - counter ∧ mx + counter < gridW g ∧
      (∃ j ∈ jrange my counter,
        0 ≤ j ∧ j < gridH g ∧ sv < gridAt g (mx - counter) j) ∧
      (∃ j ∈ jrange my counter,
        0 ≤ j ∧ j < gridH g ∧ sv < gridAt g (mx + counter) j)) →
      (ringStep g mx my counter sv).x =
        (if |(mx - counter) - centerX g| > |(mx + counter) - centerX g| then
          mx + counter else mx - counter)) ∧
    ((0 ≤ my - counter ∧ my + counter < gridH g ∧
      (∃ j ∈ jrange mx counter,
        0 ≤ j ∧ j < gridW g ∧ sv < gridAt g j (my - counter)) ∧
      (∃ j ∈ jrange mx counter,
        0 ≤ j ∧ j < gridW g ∧ sv < gridAt g j (my + counter))) →
      (ringStep g mx my counter sv).y =
        (if |(my - counter) - centerY g| > |(my + counter) - centerY g| then
          my + counter else my - counter)) := by
  constructor
  · rintro ⟨h0L, h0R, hqL, hqR⟩
    unfold ringStep
    rw [scanHHigh_x, scanHLow_x,
      (scanVHigh_spec g mx my counter sv _ h0R hqR).1,
      (scanVLow_spec g mx my counter sv _ h0L hqL).1]
  · rintro ⟨h0L, h0R, hqL, hqR⟩
    unfold ringStep
    rw [(scanHHigh_spec g mx my counter sv _ h0R hqR).1,
      (scanHLow_spec g mx my counter sv _ h0L hqL).1]

/-- Witness for the amended C4: on gCross all four rings qualify at counter
1 around the maximum (2, 2); the retained offsets are the nearer columns
and rows 1. -/
theorem ring_offset_selection_witness :
    (0 ≤ (2 : ℤ) - 1 ∧ 2 + 1 < gridW gCross ∧
      (∃ j ∈ jrange 2 1,
        0 ≤ j ∧ j < gridH gCross ∧ (4 : ℚ)/5 < gridAt gCross (2 - 1) j) ∧
      (∃ j ∈ jrange 2 1,
        0 ≤ j ∧ j < gridH gCross ∧ (4 : ℚ)/5 < gridAt gCross (2 + 1) j)) ∧
    (0 ≤ (2 : ℤ) - 1 ∧ 2 + 1 < gridH gCross ∧
      (∃ j ∈ jrange 2 1,
        0 ≤ j ∧ j < gridW gCross ∧ (4 : ℚ)/5 < gridAt gCross j (2 - 1)) ∧
      (∃ j ∈ jrange 2 1,
        0 ≤ j ∧ j < gridW gCross ∧ (4 : ℚ)/5 < gridAt gCross j (2 + 1))) ∧
    (ringStep gCross 2 2 1 (4/5)).x =
      (if |((2 : ℤ) - 1) - centerX gCross| > |((2 : ℤ) + 1) - centerX gCross|
       then 2 + 1 else 2 - 1) ∧
    (ringStep gCross 2 2 1 (4/5)).y =
      (if |((2 : ℤ) - 1) - centerY gCross| > |((2 : ℤ) + 1) - centerY gCross|
       then 2 + 1 else 2 - 1) := by
  have hx : (0 ≤ (2 : ℤ) - 1 ∧ 2 + 1 < gridW gCross ∧
      (∃ j ∈ jrange 2 1,
        0 ≤ j ∧ j < gridH gCross ∧ (4 : ℚ)/5 < gridAt gCross (2 - 1) j) ∧
      (∃ j ∈ jrange 2 1,
        0 ≤ j ∧ j < gridH gCross ∧ (4 : ℚ)/5 < gridAt gCross (2 + 1) j)) := by
    with_unfolding_all decide
  have hy : (0 ≤ (2 : ℤ) - 1 ∧ 2 + 1 < gridH gCross ∧
      (∃ j ∈ jrange 2 1,
        0 ≤ j ∧ j < gridW gCross ∧ (4 : ℚ)/5 < gridAt gCross j (2 - 1)) ∧
      (∃ j ∈ jrange 2 1,
        0 ≤ j ∧ j < gridW gCross ∧ (4 : ℚ)/5 < gridAt gCross j (2 + 1))) := by
    with_unfolding_all decide
  exact ⟨hx, hy, (ring_offset_selection gCross 2 2 1 (4/5)).1 hx,
    (ring_offset_selection gCross 2 2 1 (4/5)).2 hy⟩

/-- Folding preserves an invariant that each step preserves. -/
theorem foldl_inv {α σ : Type} (P : σ → Prop) (f : σ → α → σ) :
    ∀ (l : List α) (s : σ), P s → (∀ s a, a ∈ l → P s → P (f s a)) →
      P (l.foldl f s) := by
  intro l
  induction l with
  | nil => intro s hs _; exact hs
  | cons a t ih =>
    intro s hs hstep
    exact ih (f s a) (hstep s a (List.mem_cons_self a t) hs)
      (fun s b hb hsb => hstep s b (List.mem_cons_of_mem a hb) hsb)

/-- The maximum scan returns indices that are nonnegative and either zero
(the initial value) or strictly inside the respective dimension. -/
theorem gridArgmax_bounds (g : List (List ℚ)) :
    0 ≤ (gridArgmax g).1 ∧ 0 ≤ (gridArgmax g).2.1 ∧
    ((gridArgmax g).1 = 0 ∨ (gridArgmax g).1 < gridW g) ∧
    ((gridArgmax g).2.1 = 0 ∨ (gridArgmax g).2.1 < gridH g) := by
  have h := foldl_inv
    (fun a : ℤ × ℤ × ℚ => 0 ≤ a.1 ∧ 0 ≤ a.2.1 ∧
      (a.1 = 0 ∨ a.1 < gridW g) ∧ (a.2.1 = 0 ∨ a.2.1 < gridH g))
    (fun a i =>
      (List.range (g.getD 0 []).length).foldl (fun a j =>
        let v := (g.getD i []).getD j 0
        if a.2.2 < v then ((i : ℤ), (j : ℤ), v) else a) a)
    (List.range g.length) (0, 0, 0) (by simp)
  refine h ?_
  intro a i hi ha
  refine foldl_inv
    (fun b : ℤ × ℤ × ℚ => 0 ≤ b.1 ∧ 0 ≤ b.2.1 ∧
      (b.1 = 0 ∨ b.1 < gridW g) ∧ (b.2.1 = 0 ∨ b.2.1 < gridH g)) _
    (List.range (g.getD 0 []).length) a ha ?_
  intro b j hj hb
  by_cases hv : b.2.2 < (g.getD i []).getD j 0
  · simp only [if_pos hv]
    have hi2 : (i : ℤ) < gridW g := by
      have := List.mem_range.mp hi
      simp only [gridW]
      exact_mod_cast this
    have hj2 : (j : ℤ) < gridH g := by
      have := List.mem_range.mp hj
      simp only [gridH]
      exact_mod_cast this
    exact ⟨Int.ofNat_nonneg i, Int.ofNat_nonneg j, Or.inr hi2, Or.inr hj2⟩
  · simp only [if_neg hv]
    exact hb

/-- Once the ring is wider than both grid dimensions all four scans are
skipped, so the loop body finds nothing. -/
theorem ringStep_out (g : List (List ℚ)) (mx my counter : ℤ) (sv : ℚ)
    (h1 : ¬ 0 ≤ mx - counter) (h2 : ¬ mx + counter < gridW g)
    (h3 : ¬ 0 ≤ my - counter) (h4 : ¬ my + counter < gridH g) :
    ringStep g mx my counter sv = ⟨0, 0, [], false⟩ := by
  unfold ringStep
  rw [scanVLow_id g mx my counter sv _ h1, scanVHigh_id g mx my counter sv _ h2,
    scanHLow_id g mx my counter sv _ h3, scanHHigh_id g mx my counter sv _ h4]

/-- The ring-search loop returns within the fuel budget: once the counter
reaches the larger grid dimension (or 1 on an empty grid) the body finds
nothing and the loop stops, and the counter grows by one per iteration. -/
theorem ringLoop_some (g : List (List ℚ)) (mx my : ℤ)
    (hmx0 : 0 ≤ mx) (hmxW : mx = 0 ∨ mx < gridW g)
    (hmy0 : 0 ≤ my) (hmyH : my = 0 ∨ my < gridH g) :
    ∀ (fuel : ℕ) (counter : ℤ) (sv : ℚ) (sX sY : ℤ), 1 ≤ counter → 1 ≤ fuel →
      max (max (gridW g) (gridH g)) 1 + 1 ≤ counter + (fuel : ℤ) →
      (ringLoop g mx my fuel sv sX sY counter).isSome = true := by
  intro fuel
  induction fuel with
  | zero => intro counter sv sX sY _ hf _; omega
  | succ n ih =>
    intro counter sv sX sY hc _ hbound
    by_cases hbig : max (max (gridW g) (gridH g)) 1 ≤ counter
    · have hW : gridW g ≤ counter := le_trans (le_max_left _ _)
        (le_trans (le_max_left _ _) hbig)
      have hH : gridH g ≤ counter := le_trans (le_max_right _ _)
        (le_trans (le_max_left _ _) hbig)
      have e := ringStep_out g mx my counter sv
        (by rcases hmxW with h | h <;> omega)
        (by omega) (by rcases hmyH with h | h <;> omega) (by omega)
      unfold ringLoop
      rw [e]
      rfl
    · unfold ringLoop
      by_cases hf : (ringStep g mx my counter sv).found = true
      · rw [if_pos hf]
        refine ih (counter + 1) _ _ _ (by omega) (by omega) ?_
        push_cast at hbound
        omega
      · rw [if_neg hf]
        rfl

/-- C10: the ring search of getSplitPoint terminates on every grid: with
the fuel width + height + 2 that getSplitPoint supplies, the loop always
returns a result (isSome), because once the counter exceeds both grid
dimensions every ring cell is out of bounds, itemFound stays false, and the
loop exits. -/
theorem getSplitPoint_terminates (g : List (List ℚ)) :
    (ringLoop g (gridArgmax g).1 (gridArgmax g).2.1
      (g.length + (g.getD 0 []).length + 2)
      ((gridArgmax g).2.2 * (4/5)) 0 0 1).isSome = true := by
  obtain ⟨h1, h2, h3, h4⟩ := gridArgmax_bounds g
  refine ringLoop_some g _ _ h1 h3 h2 h4 _ 1 _ 0 0 (by omega) (by omega) ?_
  have hWH : max (max (gridW g) (gridH g)) 1 ≤ gridW g + gridH g + 1 := by
    have h5 : (0 : ℤ) ≤ gridW g := Int.ofNat_nonneg _
    have h6 : (0 : ℤ) ≤ gridH g := Int.ofNat_nonneg _
    refine max_le (max_le ?_ ?_) ?_ <;> omega
  have he : ((g.length + (g.getD 0 []).length + 2 : ℕ) : ℤ) =
      gridW g + gridH g + 2 := by
    simp [gridW, gridH]
  omega

/-- With padding 1 every grid read of the convolve copy loop is in bounds
on a square grid. -/
theorem convolveInBounds_one (grid : List (List ℚ))
    (hsq : ∀ row ∈ grid, row.length = grid.length) :
    convolveInBounds grid 1 = true := by
  simp only [convolveInBounds, List.all_eq_true]
  intro i hi
  rw [Bool.or_eq_true]
  by_cases hib : 1 ≤ i ∧ i ≤ grid.length + 2 * (1 : ℤ).toNat - 2
  · right
    simp only [List.all_eq_true]
    intro j hj
    rw [Bool.or_eq_true]
    by_cases hjb : 1 ≤ j ∧ j ≤ grid.length + 2 * (1 : ℤ).toNat - 2
    · right
      have h1n : (1 : ℤ).toNat = 1 := rfl
      rw [h1n] at hib hjb
      have hidx : ((i : ℤ) - 1).toNat < grid.length := by omega
      have hlen : (grid.getD ((i : ℤ) - 1).toNat []).length = grid.length := by
        rw [List.getD_eq_getElem _ _ hidx]
        exact hsq _ (List.getElem_mem hidx)
      simp only [Bool.and_eq_true, decide_eq_true_eq]
      refine ⟨⟨⟨?_, ?_⟩, ?_⟩, ?_⟩
      · omega
      · omega
      · omega
      · rw [hlen]; omega
    · left
      simp only [Bool.not_eq_true', Bool.and_eq_false_iff, decide_eq_false_iff_not]
      omega
  · left
    simp only [Bool.not_eq_true', Bool.and_eq_false_iff, decide_eq_false_iff_not]
    omega

/-- C6, amended: convolve returns its validation error exactly when
stride < 1, padding < 1, or either grid dimension is below the kernel size;
and for square grids passing the checks WITH padding = 1 (the only padding
the tree ever passes) it performs no out-of-bounds grid read and returns a
grid of floor((N - K + 2P)/S) + 1 rows and columns.  The padding = 1
restriction is forced by the counterexample: for padding of 2 or more the
row-copy loop reads grid[i - padding] at i = 1, out of bounds. -/
theorem convolve_contract (grid kernel : List (List ℚ)) (stride padding : ℤ) :
    ((convolve grid kernel stride padding).toOption = none ↔
      (stride < 1 ∨ padding < 1 ∨ (grid.length : ℤ) < kernel.length ∨
        ((grid.getD 0 []).length : ℤ) < kernel.length)) ∧
    (¬ (stride < 1 ∨ padding < 1 ∨ (grid.length : ℤ) < kernel.length ∨
        ((grid.getD 0 []).length : ℤ) < kernel.length) → padding = 1 →
      (∀ row ∈ grid, row.length = grid.length) →
      convolveInBounds grid padding = true ∧
      ∃ R, convolve grid kernel stride padding = Except.ok R ∧
        R.length =
          (grid.length - kernel.length + 2 * padding.toNat) / stride.toNat + 1 ∧
        ∀ row ∈ R, row.length =
          ((grid.getD 0 []).length - kernel.length + 2 * padding.toNat) /
            stride.toNat + 1) := by
  constructor
  · unfold convolve
    set L0 := (grid.getD 0 []).length
    split_ifs with h1 h2 h3 h4 <;> simp [*, Except.toOption]
  · intro hfail hpad hsq
    push_neg at hfail
    obtain ⟨hns, hnp, hn3, hn4⟩ := hfail
    subst hpad
    refine ⟨convolveInBounds_one grid hsq, ?_⟩
    unfold convolve
    rw [if_neg (not_lt.2 hns), if_neg (by omega : ¬ (1 : ℤ) < 1),
      if_neg (not_lt.2 hn3), if_neg (not_lt.2 hn4)]
    refine ⟨_, rfl, ?_, ?_⟩
    · simp
    · intro row hrow
      obtain ⟨i, -, rfl⟩ := List.mem_map.mp hrow
      simp

/-- Witness for the amended C6: the all-ones 3 x 3 grid with the default
kernel, stride 1, padding 1 passes the checks, reads in bounds, and
produces a 3 x 3 output. -/
theorem convolve_contract_witness :
    ¬ ((1 : ℤ) < 1 ∨ (1 : ℤ) < 1 ∨
      (gOnes3.length : ℤ) < defaultKernel.length ∨
      ((gOnes3.getD 0 []).length : ℤ) < defaultKernel.length) ∧
    (∀ row ∈ gOnes3, row.length = gOnes3.length) ∧
    convolveInBounds gOnes3 1 = true ∧
    (∃ R, convolve gOnes3 defaultKernel 1 1 = Except.ok R ∧
      R.length =
        (gOnes3.length - defaultKernel.length + 2 * (1 : ℤ).toNat) /
          (1 : ℤ).toNat + 1 ∧
      ∀ row ∈ R, row.length =
        ((gOnes3.getD 0 []).length - defaultKernel.length + 2 * (1 : ℤ).toNat) /
          (1 : ℤ).toNat + 1) := by
  have hfail : ¬ ((1 : ℤ) < 1 ∨ (1 : ℤ) < 1 ∨
      (gOnes3.length : ℤ) < defaultKernel.length ∨
      ((gOnes3.getD 0 []).length : ℤ) < defaultKernel.length) := by
    with_unfolding_all decide
  have hsq : ∀ row ∈ gOnes3, row.length = gOnes3.length := by decide
  obtain ⟨hin, hex⟩ :=
    (convolve_contract gOnes3 defaultKernel 1 1).2 hfail rfl hsq
  exact ⟨hfail, hsq, hin, hex⟩

/-- C7, amended: on a 3 x 3 all-equal grid with ANY 3 x 3 kernel (in
particular every symmetric one), convolve with stride 1 and padding 1
returns the grid whose entry is the common input value times the sum of the
kernel entries overlapping the unpadded grid at that position: the full
kernel sum at the center, partial sums at edges and corners.  The output is
therefore a uniform scalar multiple of the input only when those partial
sums coincide, which the zero padding prevents for ordinary smoothing
kernels (see the counterexample with the default kernel). -/
theorem convolve_flat_field (c k00 k01 k02 k10 k11 k12 k20 k21 k22 : ℚ) :
    convolve [[c, c, c], [c, c, c], [c, c, c]]
        [[k00, k01, k02], [k10, k11, k12], [k20, k21, k22]] 1 1 =
      Except.ok
        [[c * (k11 + k12 + k21 + k22), c * (k10 + k11 + k12 + k20 + k21 + k22),
          c * (k10 + k11 + k20 + k21)],
         [c * (k01 + k02 + k11 + k12 + k21 + k22),
          c * (k00 + k01 + k02 + k10 + k11 + k12 + k20 + k21 + k22),
          c * (k00 + k01 + k10 + k11 + k20 + k21)],
         [c * (k01 + k02 + k11 + k12), c * (k00 + k01 + k02 + k10 + k11 + k12),
          c * (k00 + k01 + k10 + k11)]] := by
  simp only [convolve, gridAt]
  norm_num [List.range_succ]
  ring_nf
  norm_num

/-- A tag absent from the keys has count 0. -/
theorem countTag_zero_of_not_mem (m : List (String × ℤ)) (t : String)
    (h : t ∉ m.map Prod.fst) : countTag m t = 0 := by
  induction m with
  | nil => rfl
  | cons kv rest ih =>
    simp only [List.map_cons, List.mem_cons, not_or] at h
    rw [countTag, if_neg (fun he => h.1 he.symm)]
    exact ih h.2

/-- countTag across an append: the left list wins when it holds the key. -/
theorem countTag_append (m m2 : List (String × ℤ)) (t : String) :
    countTag (m ++ m2) t =
      if t ∈ m.map Prod.fst then countTag m t else countTag m2 t := by
  induction m with
  | nil => simp [countTag]
  | cons kv rest ih =>
    by_cases hk : kv.1 = t
    · have hmem : t ∈ (kv :: rest).map Prod.fst := by simp [hk.symm]
      rw [List.cons_append, countTag, if_pos hk, if_pos hmem, countTag,
        if_pos hk]
    · have hiff : (t ∈ (kv :: rest).map Prod.fst) ↔ t ∈ rest.map Prod.fst := by
        simp only [List.map_cons, List.mem_cons]
        exact ⟨fun h => h.elim (fun he => absurd he.symm hk) id, Or.inr⟩
      rw [List.cons_append, countTag, if_neg hk, ih]
      simp only [hiff]
      by_cases hm : t ∈ rest.map Prod.fst
      · rw [if_pos hm, if_pos hm, countTag, if_neg hk]
      · rw [if_neg hm, if_neg hm]

/-- countTag after the increment map inside bumpTag: the bumped tag gains
one when present. -/
theorem countTag_mapInc (m : List (String × ℤ)) (t t2 : String) :
    countTag (m.map (fun kv => if kv.1 == t then (kv.1, kv.2 + 1) else kv)) t2 =
      countTag m t2 + (if t2 = t ∧ t2 ∈ m.map Prod.fst then 1 else 0) := by
  induction m with
  | nil => simp [countTag]
  | cons kv rest ih =>
    have hfst : (if kv.1 == t then (kv.1, kv.2 + 1) else kv).1 = kv.1 := by
      by_cases h : kv.1 == t <;> simp [h]
    by_cases hk2 : kv.1 = t2
    · by_cases hkt : (kv.1 == t) = true
      · have ht2 : t2 = t := by rw [← hk2]; exact eq_of_beq hkt
        simp only [List.map_cons, countTag, hfst, if_pos hk2, if_pos hkt]
        rw [if_pos ⟨ht2, List.mem_cons.mpr (Or.inl hk2.symm)⟩]
      · have hne : ¬ t2 = t := by
          intro he
          exact hkt (beq_iff_eq.mpr (hk2.trans he))
        simp only [List.map_cons, countTag, hfst, if_pos hk2, if_neg hkt]
        rw [if_neg (fun hc => hne hc.1), add_zero]
    · have hiff : (t2 = t ∧ t2 ∈ kv.1 :: rest.map Prod.fst) ↔
          (t2 = t ∧ t2 ∈ rest.map Prod.fst) := by
        simp only [List.mem_cons]
        constructor
        · rintro ⟨h1, h2 | h3⟩
          · exact absurd h2.symm hk2
          · exact ⟨h1, h3⟩
        · rintro ⟨h1, h3⟩
          exact ⟨h1, Or.inr h3⟩
      simp only [List.map_cons, countTag, hfst, if_neg hk2, ih, hiff]

/-- One bump adds exactly one to the bumped tag count. -/
theorem countTag_bump (m : List (String × ℤ)) (t t2 : String) :
    countTag (bumpTag m t) t2 = countTag m t2 + (if t2 = t then 1 else 0) := by
  by_cases hany : (m.any fun kv => (kv.1 == t : Bool)) = true
  · rw [show bumpTag m t =
        m.map (fun kv => if kv.1 == t then (kv.1, kv.2 + 1) else kv) from by
      unfold bumpTag; rw [if_pos hany]]
    rw [countTag_mapInc]
    by_cases ht : t2 = t
    · have hmem : t2 ∈ m.map Prod.fst := by
        subst ht
        obtain ⟨kv, hkv, hbe⟩ := List.any_eq_true.mp hany
        exact List.mem_map.mpr ⟨kv, hkv, eq_of_beq hbe⟩
      rw [if_pos ⟨ht, hmem⟩, if_pos ht]
    · rw [if_neg (fun hc => ht hc.1), if_neg ht]
  · rw [show bumpTag m t = m ++ [(t, 1)] from by
      unfold bumpTag; rw [if_neg hany]]
    rw [countTag_append]
    simp only [List.any_eq_true, not_exists, not_and] at hany
    by_cases hm : t2 ∈ m.map Prod.fst
    · have ht : ¬ t2 = t := by
        intro he
        obtain ⟨kv, hkv, hfst⟩ := List.mem_map.mp hm
        exact absurd (beq_iff_eq.mpr (hfst.trans he)) (by simpa using hany kv hkv)
      simp [hm, ht]
    · rw [if_neg hm, countTag_zero_of_not_mem m t2 hm, zero_add]
      by_cases ht : t2 = t
      · rw [countTag, if_pos ht.symm, if_pos ht]
      · rw [countTag, if_neg (fun he => ht he.symm), if_neg ht, countTag]

/-- Folding bumps over a list of tags adds the multiplicity of the tag. -/
theorem countTag_foldl_bump : ∀ (l : List String) (m : List (String × ℤ))
    (t : String),
    countTag (l.foldl bumpTag m) t = countTag m t + (l.count t : ℤ) := by
  intro l
  induction l with
  | nil => intro m t; simp
  | cons a rest ih =>
    intro m t
    rw [List.foldl_cons, ih, countTag_bump, List.count_cons]
    by_cases h : t = a
    · subst h
      simp
      ring
    · have h2 : ¬ a = t := fun he => h he.symm
      simp [h, h2]

/-- The tag counts over a point list: each tag is counted once per point
that carries it (after per-point deduplication). -/
theorem tagCounts_aux : ∀ (pts : List Point) (m : List (String × ℤ))
    (t : String),
    countTag (pts.foldl (fun m p => (pointTags p).foldl bumpTag m) m) t =
      countTag m t + (pts.countP (fun p => decide (t ∈ pointTags p)) : ℤ) := by
  intro pts
  induction pts with
  | nil => intro m t; simp
  | cons p rest ih =>
    intro m t
    rw [List.foldl_cons, ih, countTag_foldl_bump]
    have hnd : (pointTags p).Nodup := by
      unfold pointTags
      cases p.Content with
      | none => exact List.nodup_nil
      | some tags => exact List.nodup_dedup tags
    rw [List.count_eq_of_nodup hnd, List.countP_cons]
    by_cases hm : t ∈ pointTags p
    · simp [hm]
      ring
    · simp [hm]

/-- bumpTag keeps the keys of the map nodup. -/
theorem bumpTag_keys_nodup (m : List (String × ℤ)) (t : String)
    (h : (m.map Prod.fst).Nodup) : ((bumpTag m t).map Prod.fst).Nodup := by
  unfold bumpTag
  split_ifs with hany
  · have he : (m.map (fun kv => if kv.1 == t then (kv.1, kv.2 + 1) else kv)).map
        Prod.fst = m.map Prod.fst := by
      rw [List.map_map]
      apply List.map_congr_left
      intro kv _
      dsimp only [Function.comp]
      split <;> rfl
    rw [he]
    exact h
  · rw [List.map_append]
    simp only [List.map_cons, List.map_nil]
    rw [List.nodup_append]
    refine ⟨h, List.nodup_singleton t, ?_⟩
    intro x hx hx2
    simp only [List.mem_singleton] at hx2
    subst hx2
    obtain ⟨kv, hkv, hfst⟩ := List.mem_map.mp hx
    simp only [List.any_eq_true, not_exists, not_and] at hany
    exact absurd (beq_iff_eq.mpr hfst) (by simpa using hany kv hkv)

/-- bumpTag keeps every stored count at least 1. -/
theorem bumpTag_pos (m : List (String × ℤ)) (t : String)
    (h : ∀ kv ∈ m, 1 ≤ kv.2) : ∀ kv ∈ bumpTag m t, 1 ≤ kv.2 := by
  unfold bumpTag
  split_ifs with hany
  · intro kv hkv
    obtain ⟨kv0, hkv0, rfl⟩ := List.mem_map.mp hkv
    by_cases hk : (kv0.1 == t) = true
    · rw [if_pos hk]
      have := h kv0 hkv0
      show 1 ≤ kv0.2 + 1
      omega
    · rw [if_neg hk]
      exact h kv0 hkv0
  · intro kv hkv
    rcases List.mem_append.mp hkv with hkv | hkv
    · exact h kv hkv
    · simp only [List.mem_singleton] at hkv
      subst hkv
      exact le_refl 1

/-- The accumulated tagValues map has nodup keys and positive counts. -/
theorem tagCounts_invariants (pts : List Point) :
    ((tagCounts pts).map Prod.fst).Nodup ∧ ∀ kv ∈ tagCounts pts, 1 ≤ kv.2 := by
  unfold tagCounts
  refine foldl_inv
    (fun m : List (String × ℤ) => (m.map Prod.fst).Nodup ∧ ∀ kv ∈ m, 1 ≤ kv.2)
    _ pts [] (by simp) ?_
  intro m p _ hm
  refine foldl_inv
    (fun m : List (String × ℤ) => (m.map Prod.fst).Nodup ∧ ∀ kv ∈ m, 1 ≤ kv.2)
    bumpTag (pointTags p) m hm ?_
  intro m2 a _ hm2
  exact ⟨bumpTag_keys_nodup m2 a hm2.1, bumpTag_pos m2 a hm2.2⟩

/-- With nodup keys, countTag returns the stored count of a present key. -/
theorem countTag_eq_of_mem (m : List (String × ℤ)) (kv : String × ℤ)
    (t : String) (hn : (m.map Prod.fst).Nodup) (hkv : kv ∈ m) (ht : kv.1 = t) :
    countTag m t = kv.2 := by
  induction m with
  | nil => cases hkv
  | cons hd rest ih =>
    rcases List.mem_cons.mp hkv with rfl | hkv2
    · rw [countTag, if_pos ht]
    · simp only [List.map_cons, List.nodup_cons] at hn
      have hhd : ¬ hd.1 = t := by
        intro he
        exact hn.1 (he ▸ List.mem_map.mpr ⟨kv, hkv2, ht⟩)
      rw [countTag, if_neg hhd]
      exact ih hn.2 hkv2

/-- filterTags keeps exactly the present tags whose count strictly exceeds
the arithmetic mean of the counts; the integer truncation the code compares
against is equivalent because the counts are integers and the mean of
positive counts is nonnegative. -/
theorem filterTags_mem (m : List (String × ℤ)) (t : String)
    (hn : (m.map Prod.fst).Nodup) (hpos : ∀ kv ∈ m, 1 ≤ kv.2) :
    t ∈ filterTags m ↔
      t ∈ m.map Prod.fst ∧
        mean (m.map (fun kv => (kv.2 : ℚ))) < (countTag m t : ℚ) := by
  have hmean0 : 0 ≤ mean (m.map (fun kv => (kv.2 : ℚ))) := by
    unfold mean
    apply div_nonneg
    · apply List.sum_nonneg
      intro x hx
      obtain ⟨kv, hkv, rfl⟩ := List.mem_map.mp hx
      have h1 := hpos kv hkv
      have : (0 : ℤ) ≤ kv.2 := by omega
      exact_mod_cast this
    · positivity
  have htr : truncQ (mean (m.map fun kv => (kv.2 : ℚ))) =
      ⌊mean (m.map fun kv => (kv.2 : ℚ))⌋ := by
    unfold truncQ
    rw [if_pos hmean0]
  unfold filterTags
  constructor
  · intro ht
    obtain ⟨kv, hkv, rfl⟩ := List.mem_map.mp ht
    obtain ⟨hkvm, hgt⟩ := List.mem_filter.mp hkv
    rw [decide_eq_true_eq, htr] at hgt
    refine ⟨List.mem_map.mpr ⟨kv, hkvm, rfl⟩, ?_⟩
    rw [countTag_eq_of_mem m kv kv.1 hn hkvm rfl]
    exact_mod_cast Int.floor_lt.mp hgt
  · rintro ⟨hmem, hlt⟩
    obtain ⟨kv, hkv, rfl⟩ := List.mem_map.mp hmem
    have hcnt : countTag m kv.1 = kv.2 := countTag_eq_of_mem m kv kv.1 hn hkv rfl
    rw [hcnt] at hlt
    refine List.mem_map.mpr ⟨kv, List.mem_filter.mpr ⟨hkv, ?_⟩, rfl⟩
    rw [decide_eq_true_eq, htr]
    exact Int.floor_lt.mpr (by exact_mod_cast hlt)

/-- C8, amended: getBaseline deduplicates the tags within each point
payload and counts, per tag, the number of points carrying it; when at
least one tag was seen it sets baselineTags to exactly the present tags
whose count strictly exceeds the arithmetic mean of the per-tag counts
(the int() truncation in the code is equivalent for integer counts).  A
leaf with NO tagged points is left entirely unchanged: it retains any
inherited baseline tags instead of producing the empty set the claim
requires (see the counterexample). -/
theorem getBaseline_tags (d : NodeData) :
    (tagCounts d.points = [] → d.getBaseline = d) ∧
    (∀ t : String, countTag (tagCounts d.points) t =
      (d.points.countP (fun p => decide (t ∈ pointTags p)) : ℤ)) ∧
    (tagCounts d.points ≠ [] → ∀ t : String,
      t ∈ (d.getBaseline).baselineTags ↔
        t ∈ (tagCounts d.points).map Prod.fst ∧
          mean ((tagCounts d.points).map (fun kv => (kv.2 : ℚ))) <
            (countTag (tagCounts d.points) t : ℚ)) := by
  obtain ⟨hnd, hpos⟩ := tagCounts_invariants d.points
  refine ⟨?_, ?_, ?_⟩
  · intro hm
    unfold NodeData.getBaseline
    rw [if_pos (by simp [hm])]
  · intro t
    have h := tagCounts_aux d.points [] t
    simpa [tagCounts, countTag] using h
  · intro hm t
    unfold NodeData.getBaseline
    rw [if_neg (by simpa using hm)]
    exact filterTags_mem (tagCounts d.points) t hnd hpos

/-- Witness for the amended C8: the three-point tagged leaf; tag a is kept
exactly because its count 2 exceeds the mean 3/2. -/
theorem getBaseline_tags_witness :
    tagCounts dTag.points ≠ [] ∧
    (("a" ∈ (dTag.getBaseline).baselineTags) ↔
      ("a" ∈ (tagCounts dTag.points).map Prod.fst ∧
        mean ((tagCounts dTag.points).map (fun kv => (kv.2 : ℚ))) <
          (countTag (tagCounts dTag.points) "a" : ℚ))) := by
  have hm : tagCounts dTag.points ≠ [] := by with_unfolding_all decide
  exact ⟨hm, (getBaseline_tags dTag).2.2 hm "a"⟩

/-- C2, amended: for every tree NewConvTree builds from a valid region
whose width and height are themselves at least the (nonnegative) minimum
lengths, every leaf rectangle is at least minXLength wide and minYLength
high, and every child depth is its parent depth plus one.  The root-size
proviso is forced by the counterexample: an undersized root that never
splits is itself a leaf below the minimum. -/
theorem create_min_size_depth (tl br : Point) (minX minY : ℚ) (mp md cn gs : ℤ)
    (kern : List (List ℚ)) (pts : List Point) (t : ConvTree)
    (ht : NewConvTree tl br minX minY mp md cn gs kern pts = Except.ok t)
    (h0x : 0 ≤ minX) (h0y : 0 ≤ minY)
    (hwx : minX ≤ br.X - tl.X) (hwy : minY ≤ tl.Y - br.Y) :
    leavesMinSizeB minX minY t = true ∧ depthOKB t = true := by
  unfold NewConvTree at ht
  by_cases hb1 : br.X ≤ tl.X
  · rw [if_pos hb1] at ht
    exact absurd ht (by simp)
  rw [if_neg hb1] at ht
  by_cases hb2 : tl.Y ≤ br.Y
  · rw [if_pos hb2] at ht
    exact absurd ht (by simp)
  rw [if_neg hb2] at ht
  by_cases hk : checkKernel kern = true
  · rw [if_pos hk] at ht
    exact createTree_ok
      { maxPoints := mp, maxDepth := md, depth := 0, gridSize := gs, convNum := cn,
        kernel := kern, points := pts, minXLength := minX, minYLength := minY,
        topLeft := tl, bottomRight := br, baselineTags := [] } md.toNat t ht
      h0x h0y hwx hwy
  · rw [if_neg hk] at ht
    exact createTree_ok
      { maxPoints := mp, maxDepth := md, depth := 0, gridSize := gs, convNum := cn,
        kernel := defaultKernel, points := pts, minXLength := minX, minYLength := minY,
        topLeft := tl, bottomRight := br, baselineTags := [] } md.toNat t ht
      h0x h0y hwx hwy

/-- Witness for the amended C2: the concrete two-point build over the
10 x 10 region (which splits once) satisfies both invariants. -/
theorem create_min_size_depth_witness :
    NewConvTree cexTopLeft cexBottomRight 1 1 1 1 0 2 []
        [cexPointOnCut, cexPointInner] = Except.ok cexSplitTree ∧
    leavesMinSizeB 1 1 cexSplitTree = true ∧ depthOKB cexSplitTree = true := by
  have ht : NewConvTree cexTopLeft cexBottomRight 1 1 1 1 0 2 []
      [cexPointOnCut, cexPointInner] = Except.ok cexSplitTree := by
    with_unfolding_all rfl
  exact ⟨ht, create_min_size_depth cexTopLeft cexBottomRight 1 1 1 1 0 2 []
    [cexPointOnCut, cexPointInner] cexSplitTree ht (by norm_num) (by norm_num)
    (by with_unfolding_all decide) (by with_unfolding_all decide)⟩

set_option maxRecDepth 400000 in
/-- Counterexample to C1 as stated: the 10 x 10 region with gridSize 2 and
maxDepth 1 splits at the cut x = 5, y = 5; the initial point (5, 7) lies
exactly on the vertical cut line and is copied into both the top-left and
the top-right child, so the leaves hold total weight 3 although only total
weight 2 was ever supplied (and no insert was performed at all). -/
theorem weight_conservation_counterexample :
    (NewConvTree cexTopLeft cexBottomRight 1 1 1 1 0 2 []
        [cexPointOnCut, cexPointInner]).toOption.map totalLeafWeight =
      some 3 ∧
    wsum [cexPointOnCut, cexPointInner] = 2 ∧ (3 : ℤ) ≠ 2 := by
  refine ⟨by with_unfolding_all decide, by decide, by decide⟩

/-- Counterexample to C2 as stated: a valid region of width 1/2 with
minimum width and height 1 produces a single-leaf tree whose leaf rectangle
is smaller than the minimum; the minimum-size invariant holds only for the
leaves produced by splitting, not for an undersized root. -/
theorem min_size_counterexample :
    (NewConvTree ⟨0, 1, 0, none⟩ ⟨1/2, 0, 0, none⟩ 1 1 0 0 0 0 [] []).toOption.map
        (leavesMinSizeB 1 1) = some false := by
  with_unfolding_all decide

/-- Counterexample to C4 as stated: on gRings the maximum is at (3, 3) and
at counter 1 both vertical rings (columns 2 and 4) hold a qualifying cell;
the retained x offset is 2, the ring column strictly NEARER to the grid
center 2, not the farther column 4 the claim requires. -/
theorem ring_offset_counterexample :
    gridArgmax gRings = (3, 3, 1) ∧
    (∃ j ∈ jrange 3 1, 0 ≤ j ∧ j < gridH gRings ∧ (4 : ℚ)/5 < gridAt gRings 2 j) ∧
    (∃ j ∈ jrange 3 1, 0 ≤ j ∧ j < gridH gRings ∧ (4 : ℚ)/5 < gridAt gRings 4 j) ∧
    (ringStep gRings 3 3 1 (4/5)).x = 2 ∧
    |(2 : ℤ) - centerX gRings| < |(4 : ℤ) - centerX gRings| := by
  with_unfolding_all decide

/-- Counterexample to C6 as stated: a 3 x 3 grid with the default 3 x 3
kernel, stride 1 and padding 2 passes all four validation checks, yet the
row-copy loop reads grid[-1][..] (out of bounds, a Go panic), so convolve
does not succeed on every input passing the checks. -/
theorem convolve_contract_counterexample :
    convolveChecksFail gOnes3 defaultKernel 1 2 = false ∧
    convolveInBounds gOnes3 2 = false := by
  with_unfolding_all decide

/-- Counterexample to C7 as stated: on the all-ones 3 x 3 grid with the
(symmetric) default kernel, stride 1, padding 1, the output is flatOut3,
whose corner 5/2 differs from its center 5; since the input cells are all
equal, no single scalar s makes every output cell s times the input cell.
Zero padding shrinks the kernel overlap at the boundary, so smoothing a
flat field is not a uniform rescaling. -/
theorem convolve_flat_field_counterexample :
    (convolve gOnes3 defaultKernel 1 1).toOption = some flatOut3 ∧
    ¬∃ s : ℚ, ∀ i j : ℕ,
      (flatOut3.getD i []).getD j 0 = s * ((gOnes3.getD i []).getD j 0) := by
  refine ⟨by with_unfolding_all decide, ?_⟩
  rintro ⟨s, h⟩
  have h1 := h 0 0
  have h2 := h 1 1
  simp [flatOut3, gOnes3] at h1 h2
  rw [← h1] at h2
  norm_num at h2

set_option maxRecDepth 400000 in
/-- Counterexample to C8 as stated: three tagged points give the root leaf
baselineTags [a]; inserting an untagged point splits the root, every child
inherits [a] before computing its own baseline, and the children without
tagged points (the second and third leaf hold no points at all) keep
baselineTags [a] instead of the empty set the claim requires. -/
theorem getBaseline_counterexample :
    (NewConvTree cexTopLeft cexBottomRight 1 1 3 1 0 2 []
        [tagPointA1, tagPointA2, tagPointB]).toOption.map
      (fun t => leafTagInfo (Insert t tagPointNone true)) =
      some [([tagPointA1, tagPointA2, tagPointB], ["a"]), ([], ["a"]),
            ([], ["a"]), ([tagPointNone], ["a"])] ∧
    (["a"] : List String) ≠ [] := by
  refine ⟨by with_unfolding_all decide, by decide⟩

end Conv
